import Mathlib

/-!
Shallow embedding of `src/sage/schemes/elliptic_curves/saturation.py`.

The ambient Mordell-Weil group `E(K)` is modelled as an additive commutative
group `G`; curve arithmetic that the module calls into (the library services
named in the module: `division_points`, the reduced curve's abelian group,
the Weil pairing, matrix rank and right-kernel bases over `F_p`, and the
stream of auxiliary-prime reductions) are parameters of the embedding,
matching the module's use of them as external collaborators.
-/

namespace Saturation

/-- Python exceptions that the saturation module raises or handles:
`assert` raises `AssertionError`, `discrete_log` and `min([])` raise
`ValueError`. -/
inductive PErr : Type
  | assertionError : PErr
  | valueError : PErr
deriving DecidableEq

/-- The `lin_combs` dict: keys are coefficient tuples (Python tuples of
ints), values the corresponding linear combinations of the points.
Modelled as an association list with first-match lookup. -/
abbrev Cache (G : Type) : Type := List (List ℕ × G)

/-- Lookup in the `lin_combs` dict (`lin_combs[w]`, `KeyError` on miss
modelled by `none`). -/
def cacheLookup {G : Type} (cache : Cache G) (w : List ℕ) : Option G :=
  (cache.find? (fun kv => decide (kv.1 = w))).map Prod.snd

/-- Result of `p_saturation`: `(True, lin_combs)` or `(False, i, newP)`. -/
inductive PRes (G : Type) : Type
  | sat (cache : Cache G) : PRes G
  | notSat (i : ℕ) (newP : G) : PRes G
deriving DecidableEq

/-- `list(multiples(P, k))` from `sage.groups.generic`: the multiples
`0*P, 1*P, ..., (k-1)*P`. -/
def multiplesList {G : Type} [AddCommMonoid G] (P : G) (k : ℕ) : List G :=
  (List.range k).map (fun j => j • P)

/-- The per-point multiples tables of the exhaustive branch:
`mults = [list(multiples(P, p)) for P in Plist[:-1]] + [list(multiples(Plist[-1], 2))]`. -/
def multsOf {G : Type} [AddCommMonoid G] (Plist : List G) (p : ℕ) : List (List G) :=
  Plist.dropLast.map (fun P => multiplesList P p) ++ [multiplesList (Plist.getLastD 0) 2]

/-- `P = sum([m[c] for m, c in zip(mults, w)], E0)`: the linear combination
looked up from the multiples tables (`zip` truncates to the shorter list,
as in Python). -/
def lincomb {G : Type} [AddCommMonoid G] (mults : List (List G)) (w : List ℕ) : G :=
  ((mults.zip w).map (fun mc => mc.1.getD mc.2 0)).sum

/-- All length-`n` tuples of ints in `[0, p-1]` (coordinates drawn from
`GF(p)` and converted with `int`), first coordinate cycling fastest, as in
the odometer of Sage's projective-space iterator. -/
def allTuples (p : ℕ) : ℕ → List (List ℕ)
  | 0 => [[]]
  | n + 1 => (allTuples p n).flatMap (fun t => (List.range p).map (fun c => c :: t))

/-- The iterator over `ProjectiveSpace(GF(p), n-1)`, as the list of
coefficient tuples `w = tuple(int(x) for x in v)`: the position `i` of the
normalized coordinate runs from the last position down to the first, and
for each `i` the tuples are arbitrary before `i`, equal to `1` at `i`, and
`0` after `i` (Sage's iterator normalizes the last nonzero coordinate
to `1`). -/
def projEnum (p n : ℕ) : List (List ℕ) :=
  (List.range n).reverse.flatMap
    (fun i => (allTuples p i).map (fun t => t ++ 1 :: List.replicate (n - 1 - i) 0))

/-- The enumeration loop of the exhaustive branch (`for v in
ProjectiveSpace(GF(p), n-1)`); the second component of the result is the
final state of the (mutated) `lin_combs` dict.  On a cache miss the
computed combination is stored before the divisibility test; on the first
tuple whose combination has a `p`-division point the loop returns
`(False, w.index(1), divisors[0])`. -/
def exhaustLoop {G : Type} [AddCommMonoid G] [DecidableEq G] (divPts : ℕ → G → List G)
    (p : ℕ) (mults : List (List G)) : Cache G → List (List ℕ) → PRes G × Cache G
  | cache, [] => (.sat cache, cache)
  | cache, w :: ws =>
    match cacheLookup cache w with
    | some P =>
      match divPts p P with
      | [] => exhaustLoop divPts p mults cache ws
      | D :: _ => (.notSat (w.indexOf 1) D, cache)
    | none =>
      let P := lincomb mults w
      let cache' := (w, P) :: cache
      match divPts p P with
      | [] => exhaustLoop divPts p mults cache' ws
      | D :: _ => (.notSat (w.indexOf 1) D, cache')

/-- `p_saturation` with `sieve=False` (also the target of the recursive
call made by the kernel fallback of the sieve): the `n == 0` early
return, the `n == 1 and p == 2` special case
(`Plist[0].division_points(p)`, `IndexError` on the empty list giving the
saturated verdict), and otherwise the exhaustive projective enumeration.
The second component is the final state of the `lin_combs` dict. -/
def p_sat_nosieve {G : Type} [AddCommMonoid G] [DecidableEq G] (divPts : ℕ → G → List G)
    (Plist : List G) (p : ℕ) (cache : Cache G) : PRes G × Cache G :=
  if Plist.length = 0 then (.sat cache, cache)
  else if Plist.length = 1 ∧ p = 2 then
    match divPts p (Plist.headD 0) with
    | [] => (.sat cache, cache)
    | D :: _ => (.notSat 0 D, cache)
  else exhaustLoop divPts p (multsOf Plist p) cache (projEnum p Plist.length)

/-! ## The sieve

The reduction machinery (the stream of auxiliary primes `q`, the roots of
the defining polynomial mod `q`, the reduced curves and their abelian
groups) is external to the saturation logic; one surviving iteration of
the `for q in Primes()` / `for amodq in ...` loops is modelled as an
*event*: the pair of outcomes of `p_projections(G, projPlist, p)` without
and with `debug=True` (the second is consulted only when the first raises
`ValueError`, exactly as in the `try/except` at the call site). -/

/-- A list of vectors over `F_p`, as returned by `p_projections`; also
used for the rows of the accumulated matrix `A`. -/
abbrev Vecs (p : ℕ) : Type := List (List (ZMod p))

/-- One surviving auxiliary-prime iteration: the outcome of
`p_projections(G, projPlist, p)` and of the retry
`p_projections(G, projPlist, p, debug=True)`. -/
abbrev Event (p : ℕ) : Type := Except PErr (Vecs p) × Except PErr (Vecs p)

/-- The `try/except ValueError` nest at the `p_projections` call site
(saturation.py lines 350-356): a first `ValueError` triggers the retry
with `debug=True`; a second `ValueError` is absorbed as `vecs = []`; any
other exception (in particular the `AssertionError` from the Weil-pairing
order check) propagates. -/
def handleEvent {p : ℕ} : Event p → Except PErr (Vecs p)
  | (.ok v, _) => .ok v
  | (.error .valueError, .ok v) => .ok v
  | (.error .valueError, .error .valueError) => .ok []
  | (.error .valueError, .error .assertionError) => .error .assertionError
  | (.error .assertionError, _) => .error .assertionError

/-- `sum([int(vi)*Pi for vi, Pi in zip(v, Plist)], E(0))`: the point
combination attached to a kernel vector; `int(vi)` is the canonical lift
`ZMod.val`. -/
def intCombo {G : Type} [AddCommMonoid G] {p : ℕ} (v : List (ZMod p)) (Plist : List G) : G :=
  ((v.zip Plist).map (fun vP => vP.1.val • vP.2)).sum

/-- The kernel fallback of the sieve (lines 373-394 and 408-416): take a
basis of the right kernel of `A` (`kerF`, the external linear-algebra
service `A.right_kernel().basis()`), form the corresponding point
combinations, and run the no-sieve saturation on them with a fresh empty
cache; a failure at kernel index `k` is mapped back through the first
nonzero entry of the `k`-th kernel vector. -/
def kernelFallback {G : Type} [AddCommMonoid G] [DecidableEq G] (p : ℕ)
    (divPts : ℕ → G → List G) (kerF : Vecs p → Vecs p) (Plist : List G)
    (cache : Cache G) (A : Vecs p) : PRes G :=
  let vecs := kerF A
  let Rlist := vecs.map (fun v => intCombo v Plist)
  match (p_sat_nosieve divPts Rlist p []).1 with
  | .sat _ => .sat cache
  | .notSat k D => .notSat ((vecs.getD k []).findIdx (fun x => decide (x ≠ 0))) D

/-- The accumulation loop of the sieve over the event stream: rows are
appended to `A`, the rank (`rankF`, the external linear-algebra service
`A.rank()`) is tracked; full rank proves saturation, ten consecutive
rank-stagnant iterations trigger the kernel fallback, and an exhausted
stream falls back on the accumulated kernel as well. -/
def sieveRun {G : Type} [AddCommMonoid G] [DecidableEq G] (p : ℕ)
    (divPts : ℕ → G → List G) (rankF : Vecs p → ℕ) (kerF : Vecs p → Vecs p)
    (Plist : List G) (cache : Cache G) :
    List (Event p) → Vecs p → ℕ → ℕ → Except PErr (PRes G)
  | [], A, _, _ => .ok (kernelFallback p divPts kerF Plist cache A)
  | ev :: rest, A, rankA, count =>
    match handleEvent ev with
    | .error e => .error e
    | .ok vecs =>
      let A' := A ++ vecs
      let newrank := rankF A'
      if newrank = Plist.length then .ok (.sat cache)
      else if newrank = rankA then
        if count + 1 = 10 then .ok (kernelFallback p divPts kerF Plist cache A')
        else sieveRun p divPts rankF kerF Plist cache rest A' rankA (count + 1)
      else sieveRun p divPts rankF kerF Plist cache rest A' newrank 0

/-- `p_saturation(Plist, p, sieve, lin_combs)`.  The returned pair is the
function's Python return value together with the final state of the
`lin_combs` dict object (which the caller may share); exceptions escape
through `Except`.  The sieve path never mutates the dict (its recursive
call passes a fresh one). -/
def p_saturation {G : Type} [AddCommMonoid G] [DecidableEq G] (p : ℕ)
    (divPts : ℕ → G → List G) (rankF : Vecs p → ℕ) (kerF : Vecs p → Vecs p)
    (events : List (Event p)) (Plist : List G) (sieve : Bool) (cache : Cache G) :
    Except PErr (PRes G) × Cache G :=
  if Plist.length = 0 then (.ok (.sat cache), cache)
  else if Plist.length = 1 ∧ p = 2 then
    (match divPts p (Plist.headD 0) with
     | [] => .ok (.sat cache)
     | D :: _ => .ok (.notSat 0 D), cache)
  else if sieve = false then
    let r := p_sat_nosieve divPts Plist p cache
    (.ok r.1, r.2)
  else (sieveRun p divPts rankF kerF Plist cache events [] 0 0, cache)

/-! ## Concrete ambient model for witnesses

`G = ℤ` models the free part of a Mordell-Weil group of rank 1: the
division-point service returns the unique `p`-division point when the
element is divisible and the empty list otherwise. -/

/-- Division points in the ambient group `ℤ`. -/
def divPtsInt (p : ℕ) (P : ℤ) : List ℤ :=
  if 0 < p ∧ (p : ℤ) ∣ P then [P / (p : ℤ)] else []

/-- A trivial rank service (never reports progress). -/
def rkZero (p : ℕ) : Vecs p → ℕ := fun _ => 0

/-- A trivial kernel service (returns no kernel vectors). -/
def kerTriv (p : ℕ) : Vecs p → Vecs p := fun _ => []

/-! ## `p_projections`

The abelian group `G` of the reduced curve is the external group-structure
service; it is modelled with its invariant decomposition as
`ZMod d1 × ZMod d2` with the standard generators `(1,0), (0,1)` (Sage's
`G.gens()`).  Values of the Weil pairing are `d2`-th roots of unity; a
root of unity is represented by its exponent with respect to a fixed
primitive `d2`-th root, an element of `ZMod d2`, so that multiplication
of roots becomes addition, `multiplicative_order` becomes additive order,
and multiplicative discrete log becomes additive discrete log.  The
pairing itself (`weil_pairing`) is an external service, a parameter
`wp`. -/

/-- The group of points of the reduced curve, with invariants `d1, d2`. -/
abbrev Gq (d1 d2 : ℕ) : Type := ZMod d1 × ZMod d2

/-- `G.gens()`. -/
def gensOf (d1 d2 : ℕ) : List (Gq d1 d2) := [(1, 0), (0, 1)]

/-- `gens = [m*g.element() for g in G.gens()]; gens = [g for g in gens if g]`. -/
def scaledGens (d1 d2 m : ℕ) : List (Gq d1 d2) :=
  ((gensOf d1 d2).map (fun g => m • g)).filter (fun g => decide (g ≠ 0))

/-- Largest power of `p` dividing `n` (fuel-structured so that it reduces
definitionally; fuel `n` always suffices). -/
def pPowAux (p : ℕ) : ℕ → ℕ → ℕ
  | 0, _ => 1
  | fuel + 1, n => if 2 ≤ p ∧ p ∣ n ∧ n ≠ 0 then p * pPowAux p fuel (n / p) else 1

/-- `n.prime_to_m_part(p)`: the largest divisor of `n` coprime to `p`. -/
def primeToPart (p n : ℕ) : ℕ := n / pPowAux p n n

/-- `g.order()` / `zeta.multiplicative_order()`: the least `k ≥ 1` with
`k • g = 0`, searched up to the group-order bound `N` supplied by the
caller (an external group-structure service; `0` as junk value if the
bound is too small). -/
def elemOrder {A : Type} [AddMonoid A] [DecidableEq A] (N : ℕ) (g : A) : ℕ :=
  ((List.range' 1 N).find? (fun k => decide (k • g = 0))).getD 0

/-- `discrete_log(pt, g, ord=o, operation='+')` (and, through the exponent
representation of roots of unity, also `operation='*'`): the least
`k < o` with `k • g = pt`, raising `ValueError` when there is none. -/
def dlogA {A : Type} [AddMonoid A] [DecidableEq A] (o : ℕ) (g pt : A) : Except PErr ℕ :=
  match (List.range o).find? (fun k => decide (k • g = pt)) with
  | some k => .ok k
  | none => .error .valueError

/-- `p_projections(G, Plist, p)` for `G` with invariants `d1, d2` and
Weil-pairing service `wp`.  Follows saturation.py lines 113-168: trivial
`p`-primary part returns `[]`; a single nonzero scaled generator gives
one vector of additive discrete logs; two give the two vectors of
multiplicative discrete logs of pairings with `g1` and `g2` to base
`zeta = g1.weil_pairing(g2, p2)`, after the `assert` that `zeta` has
multiplicative order exactly `p1` (an `AssertionError` when violated).
The unreachable generator-list shapes reproduce the `ValueError` that
`min([])` would raise. -/
def p_projections (d1 d2 : ℕ) (wp : Gq d1 d2 → Gq d1 d2 → ℕ → ZMod d2)
    (Plist : List (Gq d1 d2)) (p : ℕ) : Except PErr (List (List (ZMod p))) :=
  let n := d1 * d2
  let m := primeToPart p n
  if m = n then .ok []
  else
    let pts := Plist.map (fun pt => m • pt)
    match scaledGens d1 d2 m with
    | [g] =>
      let pp := elemOrder n g
      match pts.mapM (fun pt => dlogA pp g pt) with
      | .ok v => .ok [v.map (fun k => (k : ZMod p))]
      | .error e => .error e
    | [g1, g2] =>
      let o1 := elemOrder n g1
      let o2 := elemOrder n g2
      let p1 := min o1 o2
      let p2 := max o1 o2
      let zeta := wp g1 g2 p2
      if elemOrder d2 zeta = p1 then
        match pts.mapM (fun pt => dlogA p1 zeta (wp pt g1 p2)) with
        | .error e => .error e
        | .ok v1 =>
          match pts.mapM (fun pt => dlogA p1 zeta (wp pt g2 p2)) with
          | .error e => .error e
          | .ok v2 => .ok [v1.map (fun k => (k : ZMod p)), v2.map (fun k => (k : ZMod p))]
      else .error .assertionError
    | _ => .error .valueError

/-! ## `full_p_saturation`

Python mutability is made explicit: the returned record carries, besides
the function's return value, the final contents of the caller's list
object (`caller`) and the value of the `lin_combs` dict passed to each
successive `p_saturation` invocation (`cacheTrace`).  The `while` loop is
run on explicit fuel; `.ok none` marks fuel exhaustion (the source has no
iteration cap), and exceptions escape through `.error`. -/

/-- Result of `full_p_saturation`, with the ghost observations `caller`
(the caller's list object after the call) and `cacheTrace` (the cache
value handed to each `p_saturation` invocation, in order). -/
structure FullRes (G : Type) where
  result : Except PErr (Option (List G × ℕ))
  caller : List G
  cacheTrace : List (Cache G)

/-- The `res = p_saturation(...)` / `while not res[0]` loop of
`full_p_saturation` (lines 504-508): on failure the `i`-th point of the
working list is overwritten with the witness, the exponent is bumped and
the *same* `lin_combs` dict is passed again.  The event stream of each
invocation is a function `evs` of the current working list (the auxiliary
reductions depend on the points). -/
def fullLoop {G : Type} [AddCommMonoid G] [DecidableEq G] (p : ℕ)
    (divPts : ℕ → G → List G) (rankF : Vecs p → ℕ) (kerF : Vecs p → Vecs p)
    (evs : List G → List (Event p)) :
    ℕ → List G → Cache G → ℕ →
    Except PErr (Option (List G × ℕ)) × List G × List (Cache G)
  | 0, Plist, _, _ => (.ok none, Plist, [])
  | fuel + 1, Plist, cache, expo =>
    let r := p_saturation p divPts rankF kerF (evs Plist) Plist true cache
    match r.1 with
    | .ok (.sat _) => (.ok (some (Plist, expo)), Plist, [cache])
    | .ok (.notSat i D) =>
      let next := fullLoop p divPts rankF kerF evs fuel (Plist.set i D) r.2 (expo + 1)
      (next.1, next.2.1, cache :: next.2.2)
    | .error e => (.error e, Plist, [cache])

/-- `full_p_saturation(Plist, p, lin_combs)`.  The curve's torsion
subgroup generators, with their orders, are the external service
`E.torsion_subgroup().gens()` (parameter `torsGens`).  Generators whose
order `p` divides are appended (`Plist = Plist + [T.element()]` builds a
fresh list, so the caller's object is only shared when no generator is
appended); if any were appended the cache is reset and the result is
truncated back to the original length (`Plist[:n]`, a fresh list). -/
def full_p_saturation {G : Type} [AddCommMonoid G] [DecidableEq G] (p : ℕ)
    (divPts : ℕ → G → List G) (rankF : Vecs p → ℕ) (kerF : Vecs p → Vecs p)
    (evs : List G → List (Event p)) (torsGens : List (G × ℕ)) (fuel : ℕ)
    (Plist : List G) (cache : Cache G) : FullRes G :=
  if Plist.length = 0 then ⟨.ok (some (Plist, 0)), Plist, []⟩
  else
    let n := Plist.length
    let Tadd := (torsGens.filter (fun t => decide (p ∣ t.2))).map Prod.fst
    let extra := Tadd.length
    let working := Plist ++ Tadd
    let cache0 := if extra ≠ 0 then ([] : Cache G) else cache
    let L := fullLoop p divPts rankF kerF evs fuel working cache0 0
    let result : Except PErr (Option (List G × ℕ)) :=
      match L.1 with
      | .ok (some (Pl, e)) => .ok (some (if extra ≠ 0 then Pl.take n else Pl, e))
      | .ok none => .ok none
      | .error e => .error e
    ⟨result, if extra ≠ 0 then Plist else L.2.1, L.2.2⟩

/-- Division points in a finite ambient group `ZMod m` (e.g. a group with
torsion), by exhaustive search. -/
def divPtsFin (m p : ℕ) (P : ZMod m) : List (ZMod m) :=
  (((List.range m).map (fun k => (k : ZMod m)))).filter (fun Q => decide (p • Q = P))

/-- `divPtsInt` is a correct division-point service for the ambient group `ℤ`. -/
theorem divPtsInt_mem (p : ℕ) (hp : 0 < p) (P Q : ℤ) :
    Q ∈ divPtsInt p P ↔ p • Q = P := by
  unfold divPtsInt
  rcases Classical.em ((p : ℤ) ∣ P) with hd | hd
  · simp only [hp, hd, and_self, if_true, List.mem_singleton, nsmul_eq_mul]
    obtain ⟨c, rfl⟩ := hd
    have hp' : (p : ℤ) ≠ 0 := by exact_mod_cast hp.ne'
    rw [Int.mul_ediv_cancel_left c hp']
    constructor
    · rintro rfl; rfl
    · intro h; exact mul_left_cancel₀ hp' h
  · simp only [hp, hd, and_false, if_false, List.not_mem_nil, false_iff, nsmul_eq_mul]
    intro h; exact hd ⟨Q, h.symm⟩

/-! ## Claims -/

/-- C4: the claim says a call with an empty point list "fails fast with a
descriptive contract violation instead of returning a saturated/not-saturated
verdict".  The code does the opposite: `p_saturation` returns the saturated
verdict `(True, lin_combs)` at line 271-272 and `full_p_saturation` returns
`(Plist, 0)` at line 468-469; no error is raised.  Concrete evaluation on the
empty list over the `ℤ` model. -/
theorem claim_C4_counterexample :
    (p_saturation 5 divPtsInt (rkZero 5) (kerTriv 5) [] ([] : List ℤ) true []).1
        = .ok (.sat [])
    ∧ (full_p_saturation 5 divPtsInt (rkZero 5) (kerTriv 5) (fun _ => []) [] 3
        ([] : List ℤ) []).result = .ok (some ([], 0)) :=
  ⟨rfl, rfl⟩

/-- C4 (amended): calling `p_saturation` or `full_p_saturation` with an empty
point list returns a normal verdict (the list is treated as trivially
saturated): `p_saturation` returns `(True, lin_combs)` with the dict
unchanged, `full_p_saturation` returns the empty list with exponent `0`; no
contract violation is raised. -/
theorem claim_C4_amended {G : Type} [AddCommMonoid G] [DecidableEq G] (p : ℕ)
    (divPts : ℕ → G → List G) (rankF : Vecs p → ℕ) (kerF : Vecs p → Vecs p)
    (events : List (Event p)) (sieve : Bool) (cache : Cache G)
    (evs : List G → List (Event p)) (torsGens : List (G × ℕ)) (fuel : ℕ) :
    p_saturation p divPts rankF kerF events [] sieve cache = (.ok (.sat cache), cache)
    ∧ full_p_saturation p divPts rankF kerF evs torsGens fuel [] cache
        = ⟨.ok (some ([], 0)), [], []⟩ :=
  ⟨rfl, rfl⟩

/-- C10: the claim (two top-level invocations relying on the default cache
argument are independent) matches the spec's ownership discipline, but the
code breaks it: Python evaluates the default `lin_combs = dict()` once, at
function definition time, so every invocation that omits the argument shares
one dict object, and the exhaustive branch mutates it (`lin_combs[w] = P`)
before every divisibility test.  Modelling the shared default by threading
the dict state: a first default call on `[3]` with `p = 3` stores the
combination `3` under the key `(1,)`; a second default call on `[5]` reads
that stale entry and returns the wrong verdict `(False, 0, 1)`, whereas the
same call with an owned fresh cache returns `(True, {(1,): 5})`.  So mutable
cache state written by the first invocation is observable in (and corrupts)
the second. -/
theorem claim_C10_code_bug :
    (p_saturation 3 divPtsInt (rkZero 3) (kerTriv 3) [] [(5 : ℤ)] false
        (p_saturation 3 divPtsInt (rkZero 3) (kerTriv 3) [] [(3 : ℤ)] false []).2).1
      = .ok (.notSat 0 1)
    ∧ (p_saturation 3 divPtsInt (rkZero 3) (kerTriv 3) [] [(5 : ℤ)] false []).1
      = .ok (.sat [([1], 5)]) :=
  ⟨rfl, rfl⟩

/-- C1: the claim says the caller's input list is never mutated and the
result never aliases it.  False: the fresh-list discipline (the `NB` comment,
line 490-495) protects only the torsion-append; when no torsion cogenerator
is appended, the working list *is* the caller's object and the replacement
`Plist[res[1]] = res[2]` (line 507) mutates it.  Concrete run over `ℤ` with
no torsion: `full_p_saturation([6], 2)` replaces `6` by `3`, and afterwards
the caller's list reads `[3]`, not `[6]` (and the returned list is that same
object). -/
theorem claim_C1_counterexample :
    (full_p_saturation 2 divPtsInt (rkZero 2) (kerTriv 2) (fun _ => []) [] 3
        [(6 : ℤ)] []).caller = [3]
    ∧ (full_p_saturation 2 divPtsInt (rkZero 2) (kerTriv 2) (fun _ => []) [] 3
        [(6 : ℤ)] []).result = .ok (some ([3], 1))
    ∧ ([(3 : ℤ)] ≠ [(6 : ℤ)]) :=
  ⟨rfl, rfl, by decide⟩

/-- On normal termination, the point list returned by the
`while not res[0]` loop is the final state of the working list object. -/
theorem fullLoop_fst_some {G : Type} [AddCommMonoid G] [DecidableEq G] (p : ℕ)
    (divPts : ℕ → G → List G) (rankF : Vecs p → ℕ) (kerF : Vecs p → Vecs p)
    (evs : List G → List (Event p)) :
    ∀ (fuel : ℕ) (Plist : List G) (cache : Cache G) (expo : ℕ) (Pl : List G) (e : ℕ),
      (fullLoop p divPts rankF kerF evs fuel Plist cache expo).1 = .ok (some (Pl, e)) →
      (fullLoop p divPts rankF kerF evs fuel Plist cache expo).2.1 = Pl := by
  intro fuel
  induction fuel with
  | zero =>
    intro Plist cache expo Pl e h
    simp [fullLoop] at h
  | succ n ih =>
    intro Plist cache expo Pl e h
    rw [fullLoop] at h ⊢
    dsimp only at h ⊢
    rcases hx : (p_saturation p divPts rankF kerF (evs Plist) Plist true cache).1 with
      err | r
    · rw [hx] at h
      simp at h
    · rcases r with c | ⟨i, D⟩
      · rw [hx] at h
        simp at h
        exact h.1
      · rw [hx] at h
        exact ih _ _ _ _ _ h

/-- C1 (amended): when at least one torsion cogenerator is appended, the
working list is a fresh list and the caller's list is never mutated (and the
returned list is a fresh truncated copy); when none is appended, the working
list aliases the caller's list, so on normal termination the returned list
is exactly the caller's (possibly mutated) object. -/
theorem claim_C1_amended {G : Type} [AddCommMonoid G] [DecidableEq G] (p : ℕ)
    (divPts : ℕ → G → List G) (rankF : Vecs p → ℕ) (kerF : Vecs p → Vecs p)
    (evs : List G → List (Event p)) (torsGens : List (G × ℕ)) (fuel : ℕ)
    (Plist : List G) (cache : Cache G) :
    ((torsGens.filter (fun t => decide (p ∣ t.2))).map Prod.fst ≠ [] →
      (full_p_saturation p divPts rankF kerF evs torsGens fuel Plist cache).caller
        = Plist)
    ∧ (∀ Pl : List G, ∀ e : ℕ,
        (torsGens.filter (fun t => decide (p ∣ t.2))).map Prod.fst = [] →
        (full_p_saturation p divPts rankF kerF evs torsGens fuel Plist cache).result
          = .ok (some (Pl, e)) →
        (full_p_saturation p divPts rankF kerF evs torsGens fuel Plist cache).caller
          = Pl) := by
  constructor
  · intro h
    unfold full_p_saturation
    by_cases h0 : Plist.length = 0
    · rw [if_pos h0]
    · rw [if_neg h0]
      dsimp only
      have hx : ((torsGens.filter (fun t => decide (p ∣ t.2))).map Prod.fst).length ≠ 0 := by
        simpa [List.length_eq_zero] using h
      simp only [if_pos hx]
  · intro Pl e h hres
    unfold full_p_saturation at hres ⊢
    by_cases h0 : Plist.length = 0
    · rw [if_pos h0] at hres ⊢
      dsimp only at hres ⊢
      simp only [Except.ok.injEq, Option.some.injEq, Prod.mk.injEq] at hres
      exact hres.1
    · rw [if_neg h0] at hres ⊢
      dsimp only at hres ⊢
      rw [h] at hres ⊢
      simp only [List.length_nil, ne_eq, not_true_eq_false, if_false, reduceIte,
        List.append_nil] at hres ⊢
      rcases hL : (fullLoop p divPts rankF kerF evs fuel Plist cache 0).1 with
        err | o
      · rw [hL] at hres
        simp at hres
      · rcases o with _ | ⟨Pl', e'⟩
        · rw [hL] at hres
          simp at hres
        · rw [hL] at hres
          simp only [Except.ok.injEq, Option.some.injEq, Prod.mk.injEq] at hres
          obtain ⟨rfl, rfl⟩ := hres
          exact fullLoop_fst_some p divPts rankF kerF evs fuel Plist cache 0 Pl' e' hL

/-- C1 witness instance: over `ZMod 4` with the 2-torsion generator `2`
appended, the caller's list is untouched. -/
theorem claim_C1_witness :
    (full_p_saturation 2 (divPtsFin 4) (rkZero 2) (kerTriv 2) (fun _ => [])
        [((2 : ZMod 4), 2)] 2 [(1 : ZMod 4)] []).caller = [1] :=
  (claim_C1_amended 2 (divPtsFin 4) (rkZero 2) (kerTriv 2) (fun _ => [])
    [((2 : ZMod 4), 2)] 2 [(1 : ZMod 4)] []).1 (by decide)

/-- The sieve path of `p_saturation` never mutates the `lin_combs` dict:
with `sieve=True` the final dict state equals the input dict. -/
theorem p_saturation_sieve_cache {G : Type} [AddCommMonoid G] [DecidableEq G] (p : ℕ)
    (divPts : ℕ → G → List G) (rankF : Vecs p → ℕ) (kerF : Vecs p → Vecs p)
    (events : List (Event p)) (Plist : List G) (cache : Cache G) :
    (p_saturation p divPts rankF kerF events Plist true cache).2 = cache := by
  unfold p_saturation
  by_cases h0 : Plist.length = 0
  · rw [if_pos h0]
  · rw [if_neg h0]
    by_cases h1 : Plist.length = 1 ∧ p = 2
    · rw [if_pos h1]
    · rw [if_neg h1]
      simp

/-- Every cache value handed to a `p_saturation` invocation by the
driver loop is the dict the loop started with (the dict object is never
replaced, and the sieve path never mutates it). -/
theorem fullLoop_trace {G : Type} [AddCommMonoid G] [DecidableEq G] (p : ℕ)
    (divPts : ℕ → G → List G) (rankF : Vecs p → ℕ) (kerF : Vecs p → Vecs p)
    (evs : List G → List (Event p)) :
    ∀ (fuel : ℕ) (Plist : List G) (cache : Cache G) (expo : ℕ),
      (fullLoop p divPts rankF kerF evs fuel Plist cache expo).2.2.Forall
        (fun c => c = cache) := by
  intro fuel
  induction fuel with
  | zero =>
    intro Plist cache expo
    simp [fullLoop, List.Forall]
  | succ n ih =>
    intro Plist cache expo
    rw [fullLoop]
    dsimp only
    rcases hx : (p_saturation p divPts rankF kerF (evs Plist) Plist true cache).1 with
      err | r
    · exact rfl
    · rcases r with c | ⟨i, D⟩
      · exact rfl
      · exact (List.forall_cons _ _ _).mpr
          ⟨rfl, by
            rw [p_saturation_sieve_cache]
            exact ih (Plist.set i D) cache (expo + 1)⟩

/-- C2: the claim says the cache is reset to empty before the next
`p_saturation` invocation whenever the span changes, in particular after a
point replacement.  False: only the torsion injection resets the cache
(line 499); the replacement loop passes the very same dict to the next
invocation (lines 504-508).  Concrete run over `ℤ` with no torsion and a
nonempty starting cache: the point `6` is replaced by `3` (exponent 1), yet
the second invocation still receives the original nonempty cache. -/
theorem claim_C2_counterexample :
    (full_p_saturation 2 divPtsInt (rkZero 2) (kerTriv 2) (fun _ => []) [] 3
        [(6 : ℤ)] [([1], 999)]).result = .ok (some ([3], 1))
    ∧ (full_p_saturation 2 divPtsInt (rkZero 2) (kerTriv 2) (fun _ => []) [] 3
        [(6 : ℤ)] [([1], 999)]).cacheTrace = [[([1], 999)], [([1], 999)]]
    ∧ ([([1], (999 : ℤ))] : Cache ℤ) ≠ [] :=
  ⟨rfl, rfl, by decide⟩

/-- C2 (amended): the cache is reset to empty exactly when torsion
cogenerators are injected, before the first `p_saturation` invocation;
every `p_saturation` invocation of one `full_p_saturation` call receives
that same initial cache — in particular, after a point replacement the
cache is passed on unchanged, not reset. -/
theorem claim_C2_amended {G : Type} [AddCommMonoid G] [DecidableEq G] (p : ℕ)
    (divPts : ℕ → G → List G) (rankF : Vecs p → ℕ) (kerF : Vecs p → Vecs p)
    (evs : List G → List (Event p)) (torsGens : List (G × ℕ)) (fuel : ℕ)
    (Plist : List G) (cache : Cache G) :
    (full_p_saturation p divPts rankF kerF evs torsGens fuel Plist cache).cacheTrace.Forall
      (fun c => c = if (torsGens.filter (fun t => decide (p ∣ t.2))).map Prod.fst = []
                    then cache else []) := by
  unfold full_p_saturation
  by_cases h0 : Plist.length = 0
  · rw [if_pos h0]
    exact trivial
  · rw [if_neg h0]
    dsimp only
    by_cases hT : (torsGens.filter (fun t => decide (p ∣ t.2))).map Prod.fst = []
    · rw [if_pos hT]
      have hlen : ¬ ((torsGens.filter (fun t => decide (p ∣ t.2))).map Prod.fst).length ≠ 0 := by
        simp [hT]
      simp only [if_neg hlen]
      exact fullLoop_trace p divPts rankF kerF evs fuel _ cache 0
    · rw [if_neg hT]
      have hlen : ((torsGens.filter (fun t => decide (p ∣ t.2))).map Prod.fst).length ≠ 0 := by
        simpa [List.length_eq_zero] using hT
      simp only [if_pos hlen]
      exact fullLoop_trace p divPts rankF kerF evs fuel _ [] 0

/-- C8: for a single-point list with `p = 2`, `p_saturation` tests
2-divisibility directly through the curve's division-point operation
(lines 274-278): it returns the saturated verdict when no `R` with
`2R = P` exists, and `(False, 0, R)` with the unique such half-point `R`
when one exists.  `divPts` is assumed to be a correct division-point
oracle for `P`. -/
theorem claim_C8 {G : Type} [AddCommMonoid G] [DecidableEq G]
    (divPts : ℕ → G → List G) (rankF : Vecs 2 → ℕ) (kerF : Vecs 2 → Vecs 2)
    (events : List (Event 2)) (sieve : Bool) (cache : Cache G) (P : G)
    (hdiv : ∀ Q : G, Q ∈ divPts 2 P ↔ 2 • Q = P) :
    ((∀ R : G, 2 • R ≠ P) →
      (p_saturation 2 divPts rankF kerF events [P] sieve cache).1 = .ok (.sat cache))
    ∧ (∀ R : G, 2 • R = P → (∀ Rx : G, 2 • Rx = P → Rx = R) →
      (p_saturation 2 divPts rankF kerF events [P] sieve cache).1
        = .ok (.notSat 0 R)) := by
  have hlen0 : ¬ ([P].length = 0) := by simp
  have hlen1 : ([P].length = 1 ∧ (2 : ℕ) = 2) := by simp
  constructor
  · intro hno
    have hdp : divPts 2 P = [] := by
      cases hdp : divPts 2 P with
      | nil => rfl
      | cons D t =>
        exact absurd ((hdiv D).1 (by rw [hdp]; exact List.mem_cons_self D t)) (hno D)
    unfold p_saturation
    rw [if_neg hlen0, if_pos hlen1]
    dsimp only
    simp only [List.headD_cons]
    rw [hdp]
  · intro R hR huniq
    have hmem : R ∈ divPts 2 P := (hdiv R).2 hR
    obtain ⟨D, t, hdp⟩ : ∃ D t, divPts 2 P = D :: t := by
      cases hdp : divPts 2 P with
      | nil => rw [hdp] at hmem; cases hmem
      | cons D t => exact ⟨D, t, rfl⟩
    have hD : D = R :=
      huniq D ((hdiv D).1 (by rw [hdp]; exact List.mem_cons_self D t))
    unfold p_saturation
    rw [if_neg hlen0, if_pos hlen1]
    dsimp only
    simp only [List.headD_cons]
    rw [hdp, hD]

/-- C8 witness instance: in the `ℤ` model, `p_saturation([6], 2)` returns
`(False, 0, 3)` through the special case. -/
theorem claim_C8_witness :
    (p_saturation 2 divPtsInt (rkZero 2) (kerTriv 2) [] [(6 : ℤ)] true []).1
      = .ok (.notSat 0 3) :=
  (claim_C8 divPtsInt (rkZero 2) (kerTriv 2) [] true [] 6
      (fun Q => divPtsInt_mem 2 (by decide) 6 Q)).2 3 (by decide)
    (fun Rx h => by rw [two_nsmul] at h; omega)

/-- C3: the claim says the pairing-order inconsistency is retried once with
diagnostics and propagated only if it recurs.  False on the code: the check
at line 163 is an `assert`, raising `AssertionError`, while the caller's
`try/except` (lines 350-356) catches `ValueError` only — so the
pairing-order failure propagates immediately, with no retry (here the retry
outcome is even a success, and is never consulted); and a `ValueError` that
recurs on retry is absorbed as `vecs = []` rather than propagated.
Concrete: for the group with invariants `(2, 4)` and a pairing service
returning the trivial root of unity, `p_projections` raises
`AssertionError`; one sieve event carrying that outcome aborts
`p_saturation` outright. -/
theorem claim_C3_counterexample :
    p_projections 2 4 (fun _ _ _ => 0) [] 2 = .error .assertionError
    ∧ (p_saturation 2 divPtsInt (rkZero 2) (kerTriv 2)
        [(Except.error .assertionError, Except.ok [[1, 0], [0, 1]])]
        [(5 : ℤ), (7 : ℤ)] true []).1 = .error .assertionError
    ∧ handleEvent ((Except.error .valueError, Except.error .valueError) : Event 2)
        = .ok [] :=
  ⟨rfl, rfl, rfl⟩

/-- C3 (amended): when, in the non-cyclic case, the Weil pairing of the two
scaled generators does not have multiplicative order exactly `p1`,
`p_projections` signals the inconsistency distinctly from normal control
flow and from `ValueError`, as an `AssertionError`; the sieve caller's
retry applies only to `ValueError`: an `AssertionError` propagates
immediately as a hard failure, without retry and whatever the retry
outcome would have been, while a `ValueError` is retried once with
diagnostics and, when it recurs, is silently absorbed as an empty vector
list. -/
theorem claim_C3_amended {G : Type} [AddCommMonoid G] [DecidableEq G]
    (d1 d2 : ℕ) (wp : Gq d1 d2 → Gq d1 d2 → ℕ → ZMod d2)
    (Plist : List (Gq d1 d2)) (p : ℕ) (g1 g2 : Gq d1 d2)
    (q : ℕ) (divPts : ℕ → G → List G) (rankF : Vecs q → ℕ) (kerF : Vecs q → Vecs q)
    (e2 : Except PErr (Vecs q)) (rest : List (Event q)) (Qlist : List G)
    (cache : Cache G) (A : Vecs q) (rankA count : ℕ) (v : Vecs q)
    (hm : primeToPart p (d1 * d2) ≠ d1 * d2)
    (hg : scaledGens d1 d2 (primeToPart p (d1 * d2)) = [g1, g2])
    (hz : elemOrder d2
        (wp g1 g2 (max (elemOrder (d1 * d2) g1) (elemOrder (d1 * d2) g2)))
      ≠ min (elemOrder (d1 * d2) g1) (elemOrder (d1 * d2) g2)) :
    p_projections d1 d2 wp Plist p = .error .assertionError
    ∧ sieveRun q divPts rankF kerF Qlist cache
        ((Except.error .assertionError, e2) :: rest) A rankA count
        = .error .assertionError
    ∧ handleEvent ((Except.error .valueError, Except.ok v) : Event q) = .ok v
    ∧ handleEvent ((Except.error .valueError, Except.error .valueError) : Event q)
        = .ok [] := by
  refine ⟨?_, ?_, rfl, rfl⟩
  · unfold p_projections
    dsimp only
    rw [if_neg hm, hg]
    dsimp only
    rw [if_neg hz]
  · rw [sieveRun]
    cases e2 <;> rfl

/-- C3 witness instance: group invariants `(2, 4)`, trivial pairing
service, a sieve state with an assertion-failed event. -/
theorem claim_C3_witness :
    p_projections 2 4 (fun _ _ _ => 0) [((1 : ZMod 2), (1 : ZMod 4))] 2
        = .error .assertionError
    ∧ sieveRun 2 divPtsInt (rkZero 2) (kerTriv 2) [(5 : ℤ), (7 : ℤ)] []
        [(Except.error .assertionError, Except.ok [[1, 0], [0, 1]])] [] 0 0
        = .error .assertionError
    ∧ handleEvent ((Except.error .valueError, Except.ok [[1, 1]]) : Event 2)
        = .ok [[1, 1]]
    ∧ handleEvent ((Except.error .valueError, Except.error .valueError) : Event 2)
        = .ok [] :=
  claim_C3_amended 2 4 (fun _ _ _ => 0) [((1 : ZMod 2), (1 : ZMod 4))] 2
    (1, 0) (0, 1) 2 divPtsInt (rkZero 2) (kerTriv 2)
    (Except.ok [[1, 0], [0, 1]]) [] [(5 : ℤ), (7 : ℤ)] [] [] 0 0 [[1, 1]]
    (by decide) (by decide) (by decide)

/-- C5: when an event leaves the rank unchanged and the stagnation counter
reaches 10, the sieve extracts the right-kernel basis of the accumulated
matrix, forms the corresponding point combinations, and calls the no-sieve
saturation on them with a fresh empty cache (`lin_combs = dict()` at line
381); when the counter is below 10 the loop just continues with the
incremented counter; the fallback maps a sub-call success to success and a
sub-call failure at kernel index `k` to `(False, j, D)` with `D` the
sub-call's witness point and `j` the position of the first nonzero entry
of the `k`-th kernel vector. -/
theorem claim_C5 {G : Type} [AddCommMonoid G] [DecidableEq G] (p : ℕ)
    (divPts : ℕ → G → List G) (rankF : Vecs p → ℕ) (kerF : Vecs p → Vecs p)
    (Plist : List G) (cache : Cache G) (ev : Event p) (rest : List (Event p))
    (A : Vecs p) (vecs : Vecs p) (rankA : ℕ)
    (hev : handleEvent ev = .ok vecs)
    (hne : rankF (A ++ vecs) ≠ Plist.length)
    (hstag : rankF (A ++ vecs) = rankA) :
    (sieveRun p divPts rankF kerF Plist cache (ev :: rest) A rankA 9
        = .ok (kernelFallback p divPts kerF Plist cache (A ++ vecs)))
    ∧ (∀ count : ℕ, count + 1 ≠ 10 →
        sieveRun p divPts rankF kerF Plist cache (ev :: rest) A rankA count
          = sieveRun p divPts rankF kerF Plist cache rest (A ++ vecs) rankA (count + 1))
    ∧ (∀ A' : Vecs p, ∀ c' : Cache G,
        (p_sat_nosieve divPts ((kerF A').map (fun v => intCombo v Plist)) p []).1
            = .sat c' →
        kernelFallback p divPts kerF Plist cache A' = .sat cache)
    ∧ (∀ A' : Vecs p, ∀ k : ℕ, ∀ D : G,
        (p_sat_nosieve divPts ((kerF A').map (fun v => intCombo v Plist)) p []).1
            = .notSat k D →
        (∃ x ∈ (kerF A').getD k [], x ≠ 0) →
        ∃ j : ℕ, kernelFallback p divPts kerF Plist cache A' = .notSat j D
          ∧ j < ((kerF A').getD k []).length
          ∧ ((kerF A').getD k []).getD j 0 ≠ 0
          ∧ ∀ i < j, ((kerF A').getD k []).getD i 0 = 0) := by
  refine ⟨?_, ?_, ?_, ?_⟩
  · rw [sieveRun]
    rw [hev]
    dsimp only
    rw [if_neg hne, if_pos hstag, if_pos (show 9 + 1 = 10 from rfl)]
  · intro count hcount
    rw [sieveRun]
    rw [hev]
    dsimp only
    rw [if_neg hne, if_pos hstag, if_neg hcount]
  · intro A' c' hsub
    unfold kernelFallback
    dsimp only
    rw [hsub]
  · intro A' k D hsub hnz
    unfold kernelFallback
    dsimp only
    rw [hsub]
    have hnzb : ∃ x ∈ (kerF A').getD k [], (fun x => decide (x ≠ 0)) x = true := by
      obtain ⟨x, hx, hx0⟩ := hnz
      exact ⟨x, hx, by simpa using hx0⟩
    have hlt := List.findIdx_lt_length_of_exists hnzb
    refine ⟨((kerF A').getD k []).findIdx (fun x => decide (x ≠ 0)), rfl, hlt, ?_, ?_⟩
    · have := List.findIdx_getElem (w := hlt)
      simp only [decide_eq_true_eq] at this
      rwa [List.getD_eq_getElem _ _ hlt]
    · intro i hi
      have hi' : i < ((kerF A').getD k []).length := lt_trans hi hlt
      have := List.not_of_lt_findIdx hi
      simp only [decide_eq_false_iff_not, not_not] at this
      rwa [List.getD_eq_getElem _ _ hi']

/-- C5 witness instance: a stagnant event at counter 9 triggers the kernel
fallback on the enlarged matrix. -/
theorem claim_C5_witness :
    sieveRun 3 divPtsInt (rkZero 3) (kerTriv 3) [(5 : ℤ), (7 : ℤ)] []
        [(Except.ok [[0, 0]], Except.ok [])] [] 0 9
      = .ok (kernelFallback 3 divPtsInt (kerTriv 3) [(5 : ℤ), (7 : ℤ)] []
          ([] ++ [[0, 0]])) :=
  (claim_C5 3 divPtsInt (rkZero 3) (kerTriv 3) [(5 : ℤ), (7 : ℤ)] []
    (Except.ok [[0, 0]], Except.ok []) [] [] [[0, 0]] 0 rfl (by decide) rfl).1

/-! ## The exhaustive enumeration: characterization -/

/-- The plain linear combination `sum(w_i * P_i)` with natural coefficients
(the specification-level meaning of a coefficient tuple). -/
def natCombo {G : Type} [AddCommMonoid G] (w : List ℕ) (Plist : List G) : G :=
  ((w.zip Plist).map (fun cP => cP.1 • cP.2)).sum

/-- A normalized projective representative: the last nonzero entry is `1`
(read from the right, after skipping zeros, the first entry is `1`). -/
def lastNonzeroOne (w : List ℕ) : Prop :=
  (w.reverse.dropWhile (fun x => decide (x = 0))).head? = some 1

instance (w : List ℕ) : Decidable (lastNonzeroOne w) := by
  unfold lastNonzeroOne
  infer_instance

theorem mem_allTuples (p : ℕ) :
    ∀ (n : ℕ) (t : List ℕ), t ∈ allTuples p n ↔ t.length = n ∧ ∀ x ∈ t, x < p := by
  intro n
  induction n with
  | zero =>
    intro t
    simp only [allTuples, List.mem_singleton, List.length_eq_zero]
    constructor
    · rintro rfl
      exact ⟨rfl, by simp⟩
    · rintro ⟨rfl, _⟩
      rfl
  | succ n ih =>
    intro t
    simp only [allTuples, List.mem_flatMap, List.mem_map, List.mem_range]
    constructor
    · rintro ⟨t', ht', c, hc, rfl⟩
      obtain ⟨hlen, hb⟩ := (ih t').1 ht'
      refine ⟨by simp [hlen], ?_⟩
      intro x hx
      rcases List.mem_cons.1 hx with rfl | hx
      · exact hc
      · exact hb x hx
    · rintro ⟨hlen, hb⟩
      cases t with
      | nil => simp at hlen
      | cons c t' =>
        refine ⟨t', (ih t').2 ⟨?_, ?_⟩, c, ?_, rfl⟩
        · simpa using hlen
        · intro x hx
          exact hb x (List.mem_cons_of_mem c hx)
        · exact hb c (List.mem_cons_self c t')

theorem dropWhile_replicate_zero_append (l : List ℕ) :
    ∀ z : ℕ, (List.replicate z 0 ++ l).dropWhile (fun x => decide (x = 0))
      = l.dropWhile (fun x => decide (x = 0)) := by
  intro z
  induction z with
  | zero => rfl
  | succ z ih => simp [List.replicate_succ, List.dropWhile_cons, ih]

theorem lastNonzeroOne_append_form (t : List ℕ) (z : ℕ) :
    lastNonzeroOne (t ++ 1 :: List.replicate z 0) := by
  unfold lastNonzeroOne
  rw [List.reverse_append, List.reverse_cons, List.reverse_replicate, List.append_assoc,
    List.singleton_append, dropWhile_replicate_zero_append]
  rw [List.dropWhile_cons]
  simp

theorem lastNonzeroOne_decomp (w : List ℕ) (h : lastNonzeroOne w) :
    ∃ t z, w = t ++ 1 :: List.replicate z 0 := by
  unfold lastNonzeroOne at h
  obtain ⟨rest, hd⟩ : ∃ rest, w.reverse.dropWhile (fun x => decide (x = 0)) = 1 :: rest := by
    cases hdw : w.reverse.dropWhile (fun x => decide (x = 0)) with
    | nil => rw [hdw] at h; simp at h
    | cons a rest =>
      rw [hdw] at h
      simp only [List.head?_cons, Option.some.injEq] at h
      exact ⟨rest, by rw [h]⟩
  have hsplit := List.takeWhile_append_dropWhile
    (p := fun x => decide (x = 0)) (l := w.reverse)
  have htw : w.reverse.takeWhile (fun x => decide (x = 0))
      = List.replicate (w.reverse.takeWhile (fun x => decide (x = 0))).length 0 := by
    rw [List.eq_replicate_iff]
    refine ⟨rfl, fun b hb => ?_⟩
    have := List.mem_takeWhile_imp hb
    simpa using this
  obtain ⟨z, hz⟩ : ∃ z, w.reverse.takeWhile (fun x => decide (x = 0))
      = List.replicate z 0 := ⟨_, htw⟩
  have hrev : w.reverse = List.replicate z 0 ++ 1 :: rest := by
    conv_lhs => rw [← hsplit]
    rw [hz, hd]
  refine ⟨rest.reverse, z, ?_⟩
  have hw := congrArg List.reverse hrev
  rw [List.reverse_reverse] at hw
  rw [hw, List.reverse_append, List.reverse_cons, List.reverse_replicate,
    List.append_assoc, List.singleton_append]

theorem mem_projEnum (p n : ℕ) (hp : 2 ≤ p) (w : List ℕ) :
    w ∈ projEnum p n ↔ w.length = n ∧ (∀ x ∈ w, x < p) ∧ lastNonzeroOne w := by
  unfold projEnum
  simp only [List.mem_flatMap, List.mem_reverse, List.mem_map, List.mem_range]
  constructor
  · rintro ⟨i, hi, t, ht, rfl⟩
    obtain ⟨hlen, hb⟩ := (mem_allTuples p i t).1 ht
    refine ⟨?_, ?_, lastNonzeroOne_append_form t _⟩
    · simp only [List.length_append, List.length_cons, List.length_replicate, hlen]
      omega
    · intro x hx
      rcases List.mem_append.1 hx with hx | hx
      · exact hb x hx
      · rcases List.mem_cons.1 hx with rfl | hx
        · omega
        · rw [List.eq_of_mem_replicate hx]; omega
  · rintro ⟨hlen, hb, hone⟩
    obtain ⟨t, z, rfl⟩ := lastNonzeroOne_decomp w hone
    simp only [List.length_append, List.length_cons, List.length_replicate] at hlen
    have hz : n - 1 - t.length = z := by omega
    refine ⟨t.length, by omega, t,
      (mem_allTuples p t.length t).2 ⟨rfl, fun x hx => hb x (List.mem_append_left _ hx)⟩, ?_⟩
    rw [hz]

theorem allTuples_length (p : ℕ) : ∀ n : ℕ, (allTuples p n).length = p ^ n := by
  intro n
  induction n with
  | zero => rfl
  | succ n ih =>
    simp only [allTuples, List.length_flatMap]
    have hmap : (allTuples p n).map (List.length ∘ fun t => (List.range p).map (fun c => c :: t))
        = List.replicate (allTuples p n).length p := by
      rw [List.eq_replicate_iff]
      refine ⟨by simp, fun b hb => ?_⟩
      simp only [List.mem_map, Function.comp] at hb
      obtain ⟨t, _, rfl⟩ := hb
      simp
    rw [hmap, List.sum_replicate, smul_eq_mul, ih, pow_succ]

theorem projEnum_length (p : ℕ) (hp : 1 ≤ p) :
    ∀ n : ℕ, (p - 1) * (projEnum p n).length + 1 = p ^ n := by
  obtain ⟨q, rfl⟩ : ∃ q, p = q + 1 := ⟨p - 1, (Nat.succ_pred_eq_of_pos hp).symm⟩
  have hlen : ∀ m : ℕ, (projEnum (q + 1) m).length
      = ((List.range m).map (fun i => (q + 1) ^ i)).sum := by
    intro m
    unfold projEnum
    rw [List.length_flatMap, List.map_reverse, List.sum_reverse]
    congr 1
    refine List.map_congr_left ?_
    intro i _
    simp [allTuples_length]
  intro n
  induction n with
  | zero => simp [hlen]
  | succ n ih =>
    rw [hlen] at ih ⊢
    rw [List.range_succ, List.map_append, List.sum_append]
    rw [← hlen] at ih
    simp only [List.map_cons, List.map_nil, List.sum_cons, List.sum_nil, Nat.add_zero]
    rw [← hlen]
    calc (q + 1 - 1) * ((projEnum (q + 1) n).length + (q + 1) ^ n) + 1
        = ((q + 1 - 1) * (projEnum (q + 1) n).length + 1) + q * (q + 1) ^ n := by
          simp only [Nat.add_sub_cancel]; ring
    _ = (q + 1) ^ n + q * (q + 1) ^ n := by rw [ih]
    _ = (q + 1) ^ (n + 1) := by ring


theorem getD_multiplesList {G : Type} [AddCommMonoid G] (P : G) (k c : ℕ) (hc : c < k) :
    (multiplesList P k).getD c 0 = c • P := by
  have hlt : c < (multiplesList P k).length := by simpa [multiplesList] using hc
  rw [List.getD_eq_getElem _ _ hlt]
  simp [multiplesList]

theorem getLastD_ne_nil {α : Type} (l : List α) (hl : l ≠ []) (a b : α) :
    l.getLastD a = l.getLastD b := by
  cases l with
  | nil => exact absurd rfl hl
  | cons c t => rw [List.getLastD_cons, List.getLastD_cons]

/-- On a coefficient tuple whose entries are `< p` and whose last entry is
`< 2`, the multiples-table lookup computes exactly the linear combination
`sum(w_i * P_i)`: the table of the last point only needs multiples `0`
and `1`. -/
theorem lincomb_eq_natCombo {G : Type} [AddCommMonoid G] (p : ℕ) :
    ∀ (Ps : List G) (w : List ℕ), Ps ≠ [] → w.length = Ps.length →
      (∀ x ∈ w, x < p) → w.getLastD 0 < 2 →
      lincomb (multsOf Ps p) w = natCombo w Ps := by
  intro Ps
  induction Ps with
  | nil => intro w h; exact absurd rfl h
  | cons P rest ih =>
    intro w _ hlen hb hlast
    cases rest with
    | nil =>
      obtain ⟨c, rfl⟩ : ∃ c, w = [c] := by
        cases w with
        | nil => simp at hlen
        | cons c w' =>
          cases w' with
          | nil => exact ⟨c, rfl⟩
          | cons d w'' => simp at hlen
      have hc : c < 2 := hlast
      have hm : multsOf [P] p = [multiplesList P 2] := rfl
      rw [hm]
      have h1 : lincomb [multiplesList P 2] [c] = (multiplesList P 2).getD c 0 := by
        unfold lincomb
        simp
      have h2 : natCombo [c] [P] = c • P := by
        unfold natCombo
        simp
      rw [h1, h2]
      exact getD_multiplesList P 2 c hc
    | cons Q rest' =>
      obtain ⟨c, w', rfl⟩ : ∃ c w', w = c :: w' := by
        cases w with
        | nil => simp at hlen
        | cons c w' => exact ⟨c, w', rfl⟩
      have hmult : multsOf (P :: Q :: rest') p
          = multiplesList P p :: multsOf (Q :: rest') p := by
        unfold multsOf
        rw [List.dropLast_cons₂, List.map_cons, List.cons_append]
        have h1 : (P :: Q :: rest').getLastD 0 = (Q :: rest').getLastD 0 := by
          rw [List.getLastD_cons]
          exact getLastD_ne_nil _ (by simp) P 0
        rw [h1]
      rw [hmult]
      have hl : lincomb (multiplesList P p :: multsOf (Q :: rest') p) (c :: w')
          = (multiplesList P p).getD c 0 + lincomb (multsOf (Q :: rest') p) w' := by
        simp [lincomb]
      have hn : natCombo (c :: w') (P :: Q :: rest') = c • P + natCombo w' (Q :: rest') := by
        simp [natCombo]
      have hw' : w' ≠ [] := by
        intro h
        rw [h] at hlen
        simp at hlen
      have hlast' : w'.getLastD 0 < 2 := by
        rw [List.getLastD_cons] at hlast
        rwa [getLastD_ne_nil w' hw' c 0] at hlast
      rw [hl, hn, getD_multiplesList P p c (hb c (List.mem_cons_self c w'))]
      congr 1
      exact ih w' (by simp) (by simpa using hlen)
        (fun x hx => hb x (List.mem_cons_of_mem c hx)) hlast'

/-- The `lin_combs` dict is *good* for a multiples table when every stored
value is the combination its key denotes. -/
def cacheGood {G : Type} [AddCommMonoid G] (mults : List (List G)) (cache : Cache G) : Prop :=
  ∀ kv ∈ cache, kv.2 = lincomb mults kv.1

theorem cacheLookup_good {G : Type} [AddCommMonoid G] (mults : List (List G))
    (cache : Cache G) (w : List ℕ) (hg : cacheGood mults cache) :
    ∀ P, cacheLookup cache w = some P → P = lincomb mults w := by
  intro P h
  unfold cacheLookup at h
  cases hf : cache.find? (fun kv => decide (kv.1 = w)) with
  | none => rw [hf] at h; simp at h
  | some kv =>
    rw [hf] at h
    simp at h
    have hmem := List.mem_of_find?_eq_some hf
    have hkey : kv.1 = w := by simpa using List.find?_some hf
    rw [← h, hg kv hmem, hkey]

theorem exhaustLoop_cons_some {G : Type} [AddCommMonoid G] [DecidableEq G]
    (divPts : ℕ → G → List G) (p : ℕ) (mults : List (List G)) (cache : Cache G)
    (w : List ℕ) (ws : List (List ℕ)) (P : G) (hl : cacheLookup cache w = some P) :
    exhaustLoop divPts p mults cache (w :: ws)
      = match divPts p P with
        | [] => exhaustLoop divPts p mults cache ws
        | D :: _ => (.notSat (w.indexOf 1) D, cache) := by
  rw [exhaustLoop, hl]

theorem exhaustLoop_cons_none {G : Type} [AddCommMonoid G] [DecidableEq G]
    (divPts : ℕ → G → List G) (p : ℕ) (mults : List (List G)) (cache : Cache G)
    (w : List ℕ) (ws : List (List ℕ)) (hl : cacheLookup cache w = none) :
    exhaustLoop divPts p mults cache (w :: ws)
      = match divPts p (lincomb mults w) with
        | [] => exhaustLoop divPts p mults ((w, lincomb mults w) :: cache) ws
        | D :: _ => (.notSat (w.indexOf 1) D, (w, lincomb mults w) :: cache) := by
  rw [exhaustLoop, hl]

/-- If no combination in the remaining enumeration is `p`-divisible, the
exhaustive loop ends with the saturated verdict (and a still-good cache). -/
theorem exhaustLoop_sat {G : Type} [AddCommMonoid G] [DecidableEq G]
    (divPts : ℕ → G → List G) (p : ℕ) (mults : List (List G)) :
    ∀ (ws : List (List ℕ)) (cache : Cache G), cacheGood mults cache →
      (∀ w ∈ ws, divPts p (lincomb mults w) = []) →
      ∃ c', exhaustLoop divPts p mults cache ws = (.sat c', c') ∧ cacheGood mults c' := by
  intro ws
  induction ws with
  | nil =>
    intro cache hg _
    exact ⟨cache, rfl, hg⟩
  | cons w ws ih =>
    intro cache hg hdiv
    cases hl : cacheLookup cache w with
    | some P =>
      have hP : P = lincomb mults w := cacheLookup_good mults cache w hg P hl
      rw [exhaustLoop_cons_some divPts p mults cache w ws P hl, hP,
        hdiv w (List.mem_cons_self w ws)]
      exact ih cache hg (fun u hu => hdiv u (List.mem_cons_of_mem w hu))
    | none =>
      rw [exhaustLoop_cons_none divPts p mults cache w ws hl,
        hdiv w (List.mem_cons_self w ws)]
      refine ih ((w, lincomb mults w) :: cache) ?_
        (fun u hu => hdiv u (List.mem_cons_of_mem w hu))
      intro kv hkv
      rcases List.mem_cons.1 hkv with rfl | hkv
      · rfl
      · exact hg kv hkv

/-- If the first `p`-divisible combination in the enumeration is at tuple
`w` with division points `D :: t`, the exhaustive loop returns
`(False, w.index(1), D)`. -/
theorem exhaustLoop_notSat {G : Type} [AddCommMonoid G] [DecidableEq G]
    (divPts : ℕ → G → List G) (p : ℕ) (mults : List (List G)) :
    ∀ (ws1 : List (List ℕ)) (w : List ℕ) (ws2 : List (List ℕ)) (cache : Cache G)
      (D : G) (t : List G), cacheGood mults cache →
      (∀ u ∈ ws1, divPts p (lincomb mults u) = []) →
      divPts p (lincomb mults w) = D :: t →
      (exhaustLoop divPts p mults cache (ws1 ++ w :: ws2)).1
        = .notSat (w.indexOf 1) D := by
  intro ws1
  induction ws1 with
  | nil =>
    intro w ws2 cache D t hg _ hdivw
    rw [List.nil_append]
    cases hl : cacheLookup cache w with
    | some P =>
      rw [exhaustLoop_cons_some divPts p mults cache w ws2 P hl,
        cacheLookup_good mults cache w hg P hl, hdivw]
    | none =>
      rw [exhaustLoop_cons_none divPts p mults cache w ws2 hl, hdivw]
  | cons w1 ws1 ih =>
    intro w ws2 cache D t hg hdiv1 hdivw
    rw [List.cons_append]
    cases hl : cacheLookup cache w1 with
    | some P =>
      rw [exhaustLoop_cons_some divPts p mults cache w1 (ws1 ++ w :: ws2) P hl,
        cacheLookup_good mults cache w1 hg P hl,
        hdiv1 w1 (List.mem_cons_self w1 ws1)]
      exact ih w ws2 cache D t hg (fun u hu => hdiv1 u (List.mem_cons_of_mem w1 hu)) hdivw
    | none =>
      rw [exhaustLoop_cons_none divPts p mults cache w1 (ws1 ++ w :: ws2) hl,
        hdiv1 w1 (List.mem_cons_self w1 ws1)]
      refine ih w ws2 ((w1, lincomb mults w1) :: cache) D t ?_
        (fun u hu => hdiv1 u (List.mem_cons_of_mem w1 hu)) hdivw
      intro kv hkv
      rcases List.mem_cons.1 hkv with rfl | hkv
      · rfl
      · exact hg kv hkv

theorem projEnum_last_mem (p n : ℕ) (w : List ℕ) (hw : w ∈ projEnum p n) :
    w.getLastD 0 < 2 ∧ 1 ∈ w := by
  unfold projEnum at hw
  simp only [List.mem_flatMap, List.mem_map, List.mem_range] at hw
  obtain ⟨i, hi, t, ht, rfl⟩ := hw
  refine ⟨?_, List.mem_append_right t (List.mem_cons_self 1 _)⟩
  cases hz : n - 1 - i with
  | zero => simp
  | succ z =>
    rw [List.replicate_succ']
    rw [show t ++ 1 :: (List.replicate z 0 ++ [0])
        = (t ++ 1 :: List.replicate z 0) ++ [0] by simp]
    rw [List.getLastD_eq_getLast?, List.getLast?_concat]
    exact Nat.lt_of_sub_eq_succ rfl

/-- C6: with the sieve disabled and outside the `n = 1, p = 2` special
case, `p_saturation` enumerates every normalized coefficient tuple of
projective space of dimension `n-1` over `F_p` — there are
`(p^n - 1)/(p - 1)` of them, stated product-form as
`(p-1)*N + 1 = p^n` — computing each combination from the per-point
multiples tables (multiples `0..p-1` per point, the last point using
only `0` and `1`), which agree with the plain combination
`sum(w_i * P_i)`; starting from a fresh cache it returns
`(False, i, D)` at the first tuple whose combination admits a
`p`-division point, where `i` is the index of a coordinate equal to `1`
and `D` the divided point, and returns the saturated verdict when no
enumerated combination is `p`-divisible. -/
theorem claim_C6 {G : Type} [AddCommMonoid G] [DecidableEq G]
    (divPts : ℕ → G → List G) (p : ℕ) (Plist : List G)
    (hp : 2 ≤ p) (hP : Plist ≠ []) (hn1 : ¬(Plist.length = 1 ∧ p = 2)) :
    (∀ w : List ℕ, w ∈ projEnum p Plist.length ↔
        w.length = Plist.length ∧ (∀ x ∈ w, x < p) ∧ lastNonzeroOne w)
    ∧ (p - 1) * (projEnum p Plist.length).length + 1 = p ^ Plist.length
    ∧ (∀ w ∈ projEnum p Plist.length,
        lincomb (multsOf Plist p) w = natCombo w Plist)
    ∧ ((∀ w ∈ projEnum p Plist.length, divPts p (natCombo w Plist) = []) →
        ∃ c', (p_sat_nosieve divPts Plist p []).1 = .sat c')
    ∧ (∀ (ws1 : List (List ℕ)) (w : List ℕ) (ws2 : List (List ℕ)) (D : G) (t : List G),
        projEnum p Plist.length = ws1 ++ w :: ws2 →
        (∀ u ∈ ws1, divPts p (natCombo u Plist) = []) →
        divPts p (natCombo w Plist) = D :: t →
        (p_sat_nosieve divPts Plist p []).1 = .notSat (w.indexOf 1) D
          ∧ w.indexOf 1 < w.length ∧ w.getD (w.indexOf 1) 0 = 1) := by
  have hlen0 : ¬ (Plist.length = 0) := by
    simpa [List.length_eq_zero] using hP
  have htables : ∀ w ∈ projEnum p Plist.length,
      lincomb (multsOf Plist p) w = natCombo w Plist := by
    intro w hw
    obtain ⟨hwl, hwb, _⟩ := (mem_projEnum p Plist.length hp w).1 hw
    exact lincomb_eq_natCombo p Plist w hP hwl hwb (projEnum_last_mem p Plist.length w hw).1
  have hns : p_sat_nosieve divPts Plist p []
      = exhaustLoop divPts p (multsOf Plist p) [] (projEnum p Plist.length) := by
    unfold p_sat_nosieve
    rw [if_neg hlen0, if_neg hn1]
  refine ⟨mem_projEnum p Plist.length hp, projEnum_length p (by omega) Plist.length,
    htables, ?_, ?_⟩
  · intro hdiv
    obtain ⟨c', heq, _⟩ := exhaustLoop_sat divPts p (multsOf Plist p)
      (projEnum p Plist.length) [] (fun kv hkv => absurd hkv (List.not_mem_nil kv))
      (fun w hw => by rw [htables w hw]; exact hdiv w hw)
    exact ⟨c', by rw [hns, heq]⟩
  · intro ws1 w ws2 D t hsplit hdiv1 hdivw
    have hwmem : w ∈ projEnum p Plist.length := by
      rw [hsplit]
      exact List.mem_append_right ws1 (List.mem_cons_self w ws2)
    have h1w : 1 ∈ w := (projEnum_last_mem p Plist.length w hwmem).2
    have hidx : w.indexOf 1 < w.length := List.indexOf_lt_length.2 h1w
    refine ⟨?_, hidx, ?_⟩
    · rw [hns, hsplit]
      refine exhaustLoop_notSat divPts p (multsOf Plist p) ws1 w ws2 [] D t
        (fun kv hkv => absurd hkv (List.not_mem_nil kv)) ?_ ?_
      · intro u hu
        have humem : u ∈ projEnum p Plist.length := by
          rw [hsplit]
          exact List.mem_append_left _ hu
        rw [htables u humem]
        exact hdiv1 u hu
      · rw [htables w hwmem]
        exact hdivw
    · rw [List.getD_eq_getElem _ _ hidx]
      exact List.getElem_indexOf hidx

/-- C6 witness instance: `Plist = [2, 3]` over `ℤ` with `p = 3`; the
enumeration is `[[0,1],[1,1],[2,1],[1,0]]`, the tuple `[0,1]` is the
first whose combination `3` is 3-divisible, and the verdict is
`(False, 1, 1)`. -/
theorem claim_C6_witness :
    (p_sat_nosieve divPtsInt [(2 : ℤ), (3 : ℤ)] 3 []).1
        = .notSat (([0, 1] : List ℕ).indexOf 1) 1
    ∧ ([0, 1] : List ℕ).indexOf 1 < ([0, 1] : List ℕ).length
    ∧ ([0, 1] : List ℕ).getD (([0, 1] : List ℕ).indexOf 1) 0 = 1 :=
  (claim_C6 divPtsInt 3 [(2 : ℤ), (3 : ℤ)] (by decide) (by decide) (by decide)).2.2.2.2
    [] [0, 1] [[1, 1], [2, 1], [1, 0]] 1 [] (by decide) (by decide) (by decide)

/-! ## `p_projections`: discrete-log and order facts -/

theorem find?_range' (P : ℕ → Bool) :
    ∀ (len s t : ℕ), P t = true → (∀ u, s ≤ u → u < t → P u = false) →
      s ≤ t → t < s + len → (List.range' s len).find? P = some t := by
  intro len
  induction len with
  | zero => intro s t _ _ hst hlt; omega
  | succ len ih =>
    intro s t hPt hmin hst hlt
    rw [List.range'_succ]
    by_cases hs : s = t
    · subst hs
      rw [List.find?_cons_of_pos _ hPt]
    · have hPs : P s = false := hmin s le_rfl (by omega)
      rw [List.find?_cons_of_neg]
      · exact ih (s + 1) t hPt (fun u hu hu2 => hmin u (by omega) hu2) (by omega) (by omega)
      · simp [hPs]

/-- The linear search of `elemOrder` computes the additive order whenever
the search bound covers the group. -/
theorem elemOrder_eq_addOrderOf {A : Type} [AddGroup A] [Fintype A] [DecidableEq A]
    (N : ℕ) (g : A) (hN : Fintype.card A ≤ N) : elemOrder N g = addOrderOf g := by
  unfold elemOrder
  have hpos : 0 < addOrderOf g := addOrderOf_pos g
  have hle : addOrderOf g ≤ N :=
    le_trans (Nat.le_of_dvd Fintype.card_pos addOrderOf_dvd_card) hN
  rw [find?_range' (fun k => decide (k • g = 0)) N 1 (addOrderOf g) ?_ ?_ hpos (by omega)]
  · rfl
  · simp only [decide_eq_true_eq]
    exact addOrderOf_nsmul_eq_zero g
  · intro u hu1 hult
    simp only [decide_eq_false_iff_not]
    intro hu
    exact absurd (addOrderOf_le_of_nsmul_eq_zero (by omega) hu) (by omega)

theorem dlogA_ok {A : Type} [AddMonoid A] [DecidableEq A] (o : ℕ) (g pt : A)
    (h : ∃ k, k < o ∧ k • g = pt) :
    ∃ k, dlogA o g pt = .ok k ∧ k < o ∧ k • g = pt := by
  unfold dlogA
  cases hf : (List.range o).find? (fun k => decide (k • g = pt)) with
  | none =>
    rw [List.find?_eq_none] at hf
    obtain ⟨k, hk, hkg⟩ := h
    exact absurd (by simpa using hkg) (by simpa using hf k (List.mem_range.2 hk))
  | some k =>
    refine ⟨k, rfl, ?_, ?_⟩
    · exact List.mem_range.1 (List.mem_of_find?_eq_some hf)
    · simpa using List.find?_some hf

theorem mapM_ok_of_forall {α β ε : Type} (f : α → Except ε β) :
    ∀ l : List α, (∀ a ∈ l, ∃ b, f a = .ok b ∧ True) →
      ∀ (R : α → β → Prop), (∀ a ∈ l, ∀ b, f a = .ok b → R a b) →
      ∃ bs, l.mapM f = .ok bs ∧ List.Forall₂ R l bs := by
  intro l
  induction l with
  | nil =>
    intro _ R _
    exact ⟨[], rfl, List.Forall₂.nil⟩
  | cons a l ih =>
    intro hex R hR
    obtain ⟨b, hb, -⟩ := hex a (List.mem_cons_self a l)
    obtain ⟨bs, hbs, hF⟩ := ih (fun x hx => hex x (List.mem_cons_of_mem a hx)) R
      (fun x hx => hR x (List.mem_cons_of_mem a hx))
    refine ⟨b :: bs, ?_, List.forall₂_cons.2 ⟨hR a (List.mem_cons_self a l) b hb, hF⟩⟩
    rw [List.mapM_cons, hb, hbs]
    rfl

theorem dlogA_ok_spec {A : Type} [AddMonoid A] [DecidableEq A] (o : ℕ) (g pt : A) (k : ℕ)
    (h : dlogA o g pt = .ok k) : k < o ∧ k • g = pt := by
  unfold dlogA at h
  cases hf : (List.range o).find? (fun j => decide (j • g = pt)) with
  | none => rw [hf] at h; cases h
  | some k' =>
    rw [hf] at h
    cases h
    exact ⟨List.mem_range.1 (List.mem_of_find?_eq_some hf),
      by simpa using List.find?_some hf⟩

/-- Which scaled generator survives the nonzero filter when exactly one
does (the scaled generators are `(m mod d1, 0)` and `(0, m mod d2)`). -/
theorem scaledGens_single (d1 d2 m : ℕ) (g : Gq d1 d2)
    (hg : scaledGens d1 d2 m = [g]) :
    (g = ((m : ZMod d1), (0 : ZMod d2)) ∧ ((0 : ZMod d1), (m : ZMod d2)) = (0 : Gq d1 d2))
    ∨ (g = ((0 : ZMod d1), (m : ZMod d2)) ∧ ((m : ZMod d1), (0 : ZMod d2)) = (0 : Gq d1 d2)) := by
  have e1 : m • ((1 : ZMod d1), (0 : ZMod d2)) = ((m : ZMod d1), (0 : ZMod d2)) := by
    simp [Prod.smul_mk, nsmul_eq_mul]
  have e2 : m • ((0 : ZMod d1), (1 : ZMod d2)) = ((0 : ZMod d1), (m : ZMod d2)) := by
    simp [Prod.smul_mk, nsmul_eq_mul]
  unfold scaledGens gensOf at hg
  rw [List.map_cons, List.map_cons, List.map_nil, e1, e2] at hg
  by_cases h1 : ((m : ZMod d1), (0 : ZMod d2)) = (0 : Gq d1 d2) <;>
    by_cases h2 : ((0 : ZMod d1), (m : ZMod d2)) = (0 : Gq d1 d2)
  · simp [List.filter, h1, h2] at hg
  · simp [List.filter, h1, h2] at hg
    exact Or.inr ⟨hg.symm, h1⟩
  · simp [List.filter, h1, h2] at hg
    exact Or.inl ⟨hg.symm, h2⟩
  · simp [List.filter, h1, h2] at hg

/-- In the cyclic case of the model group, every scaled point has a
discrete log to the surviving scaled generator: the mathematical fact
that makes the code's additive `discrete_log` calls succeed. -/
theorem cyclic_dlog_exists (d1 d2 m : ℕ) (hd1 : 0 < d1) (hd2 : 0 < d2)
    (g : Gq d1 d2) (hg : scaledGens d1 d2 m = [g]) (pt : Gq d1 d2) :
    ∃ k, k < elemOrder (d1 * d2) g ∧ k • g = m • pt := by
  haveI : NeZero d1 := ⟨hd1.ne'⟩
  haveI : NeZero d2 := ⟨hd2.ne'⟩
  have hcard : Fintype.card (Gq d1 d2) = d1 * d2 := by
    simp [Gq, ZMod.card]
  have hord : elemOrder (d1 * d2) g = addOrderOf g :=
    elemOrder_eq_addOrderOf _ g (le_of_eq hcard)
  have hred : ∀ x : ℕ, (x % addOrderOf g) • g = x • g := by
    intro x
    conv_rhs => rw [← Nat.mod_add_div x (addOrderOf g)]
    rw [add_nsmul, mul_nsmul, addOrderOf_nsmul_eq_zero, smul_zero, add_zero]
  obtain ⟨a, b⟩ := pt
  rcases scaledGens_single d1 d2 m g hg with ⟨hgeq, hzero⟩ | ⟨hgeq, hzero⟩
  · have hm2 : (m : ZMod d2) = 0 := by
      simpa using congrArg Prod.snd hzero
    refine ⟨a.val % addOrderOf g, by rw [hord]; exact Nat.mod_lt _ (addOrderOf_pos g), ?_⟩
    rw [hred, hgeq]
    simp [Prod.smul_mk, nsmul_eq_mul, hm2, ZMod.natCast_val, ZMod.cast_id, mul_comm]
  · have hm1 : (m : ZMod d1) = 0 := by
      simpa using congrArg Prod.fst hzero
    refine ⟨b.val % addOrderOf g, by rw [hord]; exact Nat.mod_lt _ (addOrderOf_pos g), ?_⟩
    rw [hred, hgeq]
    simp [Prod.smul_mk, nsmul_eq_mul, hm1, ZMod.natCast_val, ZMod.cast_id, mul_comm]

/-- `p1 = min(orders)` of the two scaled generators. -/
def p1of (d1 d2 : ℕ) (g1 g2 : Gq d1 d2) : ℕ :=
  min (elemOrder (d1 * d2) g1) (elemOrder (d1 * d2) g2)

/-- `p2 = max(orders)` of the two scaled generators. -/
def p2of (d1 d2 : ℕ) (g1 g2 : Gq d1 d2) : ℕ :=
  max (elemOrder (d1 * d2) g1) (elemOrder (d1 * d2) g2)

theorem p_projections_nil_eq (d1 d2 p : ℕ) (wp : Gq d1 d2 → Gq d1 d2 → ℕ → ZMod d2)
    (Plist : List (Gq d1 d2)) (hm : primeToPart p (d1 * d2) ≠ d1 * d2)
    (hsc : scaledGens d1 d2 (primeToPart p (d1 * d2)) = []) :
    p_projections d1 d2 wp Plist p = .error .valueError := by
  unfold p_projections
  rw [if_neg hm]
  dsimp only
  rw [hsc]

theorem p_projections_big_eq (d1 d2 p : ℕ) (wp : Gq d1 d2 → Gq d1 d2 → ℕ → ZMod d2)
    (Plist : List (Gq d1 d2)) (g1 g2 g3 : Gq d1 d2) (rest : List (Gq d1 d2))
    (hm : primeToPart p (d1 * d2) ≠ d1 * d2)
    (hsc : scaledGens d1 d2 (primeToPart p (d1 * d2)) = g1 :: g2 :: g3 :: rest) :
    p_projections d1 d2 wp Plist p = .error .valueError := by
  unfold p_projections
  rw [if_neg hm]
  dsimp only
  rw [hsc]

theorem p_projections_cyclic_eq (d1 d2 p : ℕ) (wp : Gq d1 d2 → Gq d1 d2 → ℕ → ZMod d2)
    (Plist : List (Gq d1 d2)) (g : Gq d1 d2)
    (hm : primeToPart p (d1 * d2) ≠ d1 * d2)
    (hg : scaledGens d1 d2 (primeToPart p (d1 * d2)) = [g]) :
    p_projections d1 d2 wp Plist p
      = match (Plist.map (fun pt => primeToPart p (d1 * d2) • pt)).mapM
            (fun pt => dlogA (elemOrder (d1 * d2) g) g pt) with
        | .ok v => .ok [v.map (fun k => (k : ZMod p))]
        | .error e => .error e := by
  unfold p_projections
  rw [if_neg hm]
  dsimp only
  rw [hg]

theorem p_projections_noncyclic_eq (d1 d2 p : ℕ) (wp : Gq d1 d2 → Gq d1 d2 → ℕ → ZMod d2)
    (Plist : List (Gq d1 d2)) (g1 g2 : Gq d1 d2)
    (hm : primeToPart p (d1 * d2) ≠ d1 * d2)
    (hg : scaledGens d1 d2 (primeToPart p (d1 * d2)) = [g1, g2]) :
    p_projections d1 d2 wp Plist p
      = (if elemOrder d2 (wp g1 g2 (p2of d1 d2 g1 g2)) = p1of d1 d2 g1 g2 then
          match (Plist.map (fun pt => primeToPart p (d1 * d2) • pt)).mapM
              (fun pt => dlogA (p1of d1 d2 g1 g2) (wp g1 g2 (p2of d1 d2 g1 g2))
                (wp pt g1 (p2of d1 d2 g1 g2))) with
          | .error e => .error e
          | .ok v1 =>
            match (Plist.map (fun pt => primeToPart p (d1 * d2) • pt)).mapM
                (fun pt => dlogA (p1of d1 d2 g1 g2) (wp g1 g2 (p2of d1 d2 g1 g2))
                  (wp pt g2 (p2of d1 d2 g1 g2))) with
            | .error e => .error e
            | .ok v2 => .ok [v1.map (fun k => (k : ZMod p)),
                v2.map (fun k => (k : ZMod p))]
        else .error .assertionError) := by
  unfold p_projections
  rw [if_neg hm]
  dsimp only
  rw [hg]
  rfl

/-- C7: `p_projections` returns the empty list exactly when the `p`-primary
part of `G` is trivial (the prime-to-`p` part of `|G|` equals `|G|`); with a
single nonzero scaled generator `g` (cyclic `p`-primary part) it returns one
vector whose entries are the additive discrete logs of the scaled points to
base `g`, reduced mod `p`; with two scaled generators (non-cyclic case) it
returns exactly two vectors of multiplicative discrete logs, to base
`zeta = weil_pairing(g1, g2, p2)`, of each scaled point's pairing with `g1`
and with `g2`, reduced mod `p` (roots of unity are represented by their
exponents, so multiplicative discrete log is additive on exponents).  The
pairing facts needed in the non-cyclic case are hypotheses on the external
pairing service. -/
theorem claim_C7 (d1 d2 p : ℕ) (wp : Gq d1 d2 → Gq d1 d2 → ℕ → ZMod d2)
    (Plist : List (Gq d1 d2)) (hd1 : 0 < d1) (hd2 : 0 < d2) :
    (p_projections d1 d2 wp Plist p = .ok [] ↔ primeToPart p (d1 * d2) = d1 * d2)
    ∧ (∀ g : Gq d1 d2, primeToPart p (d1 * d2) ≠ d1 * d2 →
        scaledGens d1 d2 (primeToPart p (d1 * d2)) = [g] →
        ∃ ks : List ℕ,
          p_projections d1 d2 wp Plist p = .ok [ks.map (fun k => (k : ZMod p))]
          ∧ List.Forall₂
              (fun (pt : Gq d1 d2) (k : ℕ) => k • g = primeToPart p (d1 * d2) • pt)
              Plist ks)
    ∧ (∀ g1 g2 : Gq d1 d2, primeToPart p (d1 * d2) ≠ d1 * d2 →
        scaledGens d1 d2 (primeToPart p (d1 * d2)) = [g1, g2] →
        elemOrder d2 (wp g1 g2 (p2of d1 d2 g1 g2)) = p1of d1 d2 g1 g2 →
        (∀ pt ∈ Plist, ∃ k, k < p1of d1 d2 g1 g2
          ∧ k • wp g1 g2 (p2of d1 d2 g1 g2)
              = wp (primeToPart p (d1 * d2) • pt) g1 (p2of d1 d2 g1 g2)) →
        (∀ pt ∈ Plist, ∃ k, k < p1of d1 d2 g1 g2
          ∧ k • wp g1 g2 (p2of d1 d2 g1 g2)
              = wp (primeToPart p (d1 * d2) • pt) g2 (p2of d1 d2 g1 g2)) →
        ∃ ks1 ks2 : List ℕ,
          p_projections d1 d2 wp Plist p
            = .ok [ks1.map (fun k => (k : ZMod p)), ks2.map (fun k => (k : ZMod p))]
          ∧ List.Forall₂
              (fun (pt : Gq d1 d2) (k : ℕ) => k • wp g1 g2 (p2of d1 d2 g1 g2)
                = wp (primeToPart p (d1 * d2) • pt) g1 (p2of d1 d2 g1 g2)) Plist ks1
          ∧ List.Forall₂
              (fun (pt : Gq d1 d2) (k : ℕ) => k • wp g1 g2 (p2of d1 d2 g1 g2)
                = wp (primeToPart p (d1 * d2) • pt) g2 (p2of d1 d2 g1 g2)) Plist ks2) := by
  refine ⟨⟨?_, ?_⟩, ?_, ?_⟩
  · -- .ok [] implies the p-primary part is trivial
    intro hok
    by_contra hm
    rcases hsc : scaledGens d1 d2 (primeToPart p (d1 * d2)) with _ | ⟨g1, _ | ⟨g2, _ | ⟨g3, rest⟩⟩⟩
    · rw [p_projections_nil_eq d1 d2 p wp Plist hm hsc] at hok
      cases hok
    · rw [p_projections_cyclic_eq d1 d2 p wp Plist g1 hm hsc] at hok
      cases hmm : (Plist.map (fun pt => primeToPart p (d1 * d2) • pt)).mapM
          (fun pt => dlogA (elemOrder (d1 * d2) g1) g1 pt) with
      | ok v => rw [hmm] at hok; simp at hok
      | error e => rw [hmm] at hok; simp at hok
    · rw [p_projections_noncyclic_eq d1 d2 p wp Plist g1 g2 hm hsc] at hok
      by_cases hz : elemOrder d2 (wp g1 g2 (p2of d1 d2 g1 g2)) = p1of d1 d2 g1 g2
      · rw [if_pos hz] at hok
        cases hmm1 : (Plist.map (fun pt => primeToPart p (d1 * d2) • pt)).mapM
            (fun pt => dlogA (p1of d1 d2 g1 g2) (wp g1 g2 (p2of d1 d2 g1 g2))
              (wp pt g1 (p2of d1 d2 g1 g2))) with
        | ok v1 =>
          rw [hmm1] at hok
          cases hmm2 : (Plist.map (fun pt => primeToPart p (d1 * d2) • pt)).mapM
              (fun pt => dlogA (p1of d1 d2 g1 g2) (wp g1 g2 (p2of d1 d2 g1 g2))
                (wp pt g2 (p2of d1 d2 g1 g2))) with
          | ok v2 => rw [hmm2] at hok; simp at hok
          | error e => rw [hmm2] at hok; simp at hok
        | error e => rw [hmm1] at hok; simp at hok
      · rw [if_neg hz] at hok
        cases hok
    · rw [p_projections_big_eq d1 d2 p wp Plist g1 g2 g3 rest hm hsc] at hok
      cases hok
  · -- trivial p-primary part gives .ok []
    intro hm
    unfold p_projections
    rw [if_pos hm]
  · -- cyclic case
    intro g hm hg
    have hexist : ∀ pt ∈ Plist.map (fun pt => primeToPart p (d1 * d2) • pt),
        ∃ k, dlogA (elemOrder (d1 * d2) g) g pt = .ok k ∧ True := by
      intro pt hpt
      obtain ⟨pt0, _, rfl⟩ := List.mem_map.1 hpt
      obtain ⟨k', h1, _, _⟩ := dlogA_ok (elemOrder (d1 * d2) g) g _
        (cyclic_dlog_exists d1 d2 _ hd1 hd2 g hg pt0)
      exact ⟨k', h1, trivial⟩
    obtain ⟨ks, hks, hF⟩ := mapM_ok_of_forall
      (fun pt => dlogA (elemOrder (d1 * d2) g) g pt) _ hexist
      (fun pt k => k • g = pt)
      (fun a _ b hb => (dlogA_ok_spec _ g a b hb).2)
    refine ⟨ks, ?_, ?_⟩
    · rw [p_projections_cyclic_eq d1 d2 p wp Plist g hm hg, hks]
    · exact List.forall₂_map_left_iff.1 hF
  · -- non-cyclic case
    intro g1 g2 hm hg hz hdl1 hdl2
    have hexist1 : ∀ pt ∈ Plist.map (fun pt => primeToPart p (d1 * d2) • pt),
        ∃ k, dlogA (p1of d1 d2 g1 g2) (wp g1 g2 (p2of d1 d2 g1 g2))
          (wp pt g1 (p2of d1 d2 g1 g2)) = .ok k ∧ True := by
      intro pt hpt
      obtain ⟨pt0, hpt0, rfl⟩ := List.mem_map.1 hpt
      obtain ⟨k', h1, _, _⟩ := dlogA_ok (p1of d1 d2 g1 g2) _ _ (hdl1 pt0 hpt0)
      exact ⟨k', h1, trivial⟩
    have hexist2 : ∀ pt ∈ Plist.map (fun pt => primeToPart p (d1 * d2) • pt),
        ∃ k, dlogA (p1of d1 d2 g1 g2) (wp g1 g2 (p2of d1 d2 g1 g2))
          (wp pt g2 (p2of d1 d2 g1 g2)) = .ok k ∧ True := by
      intro pt hpt
      obtain ⟨pt0, hpt0, rfl⟩ := List.mem_map.1 hpt
      obtain ⟨k', h1, _, _⟩ := dlogA_ok (p1of d1 d2 g1 g2) _ _ (hdl2 pt0 hpt0)
      exact ⟨k', h1, trivial⟩
    obtain ⟨ks1, hks1, hF1⟩ := mapM_ok_of_forall
      (fun pt => dlogA (p1of d1 d2 g1 g2) (wp g1 g2 (p2of d1 d2 g1 g2))
        (wp pt g1 (p2of d1 d2 g1 g2))) _ hexist1
      (fun pt k => k • wp g1 g2 (p2of d1 d2 g1 g2) = wp pt g1 (p2of d1 d2 g1 g2))
      (fun a _ b hb => (dlogA_ok_spec _ _ _ b hb).2)
    obtain ⟨ks2, hks2, hF2⟩ := mapM_ok_of_forall
      (fun pt => dlogA (p1of d1 d2 g1 g2) (wp g1 g2 (p2of d1 d2 g1 g2))
        (wp pt g2 (p2of d1 d2 g1 g2))) _ hexist2
      (fun pt k => k • wp g1 g2 (p2of d1 d2 g1 g2) = wp pt g2 (p2of d1 d2 g1 g2))
      (fun a _ b hb => (dlogA_ok_spec _ _ _ b hb).2)
    refine ⟨ks1, ks2, ?_, ?_, ?_⟩
    · rw [p_projections_noncyclic_eq d1 d2 p wp Plist g1 g2 hm hg, if_pos hz, hks1, hks2]
    · exact List.forall₂_map_left_iff.1 hF1
    · exact List.forall₂_map_left_iff.1 hF2

/-- C7 witness instance: invariants `(3, 4)`, `p = 2`: the prime-to-2 part
of `12` is `3`, the only surviving scaled generator is `(0, 3)`, and the
single vector of additive discrete logs is returned. -/
theorem claim_C7_witness :
    ∃ ks : List ℕ,
      p_projections 3 4 (fun _ _ _ => 0) [((1 : ZMod 3), (1 : ZMod 4))] 2
          = .ok [ks.map (fun k => (k : ZMod 2))]
        ∧ List.Forall₂
            (fun (pt : Gq 3 4) (k : ℕ) =>
              k • ((0 : ZMod 3), (3 : ZMod 4)) = primeToPart 2 (3 * 4) • pt)
            [((1 : ZMod 3), (1 : ZMod 4))] ks :=
  (claim_C7 3 4 2 (fun _ _ _ => 0) [((1 : ZMod 3), (1 : ZMod 4))]
      (by decide) (by decide)).2.1
    ((0 : ZMod 3), (3 : ZMod 4)) (by decide) (by decide)

/-! ## Idempotence on saturated lists -/

/-- `Plist` is `p`-saturated in the ambient group: no integer linear
combination whose coefficient vector is nonzero mod `p` admits a
`p`-division point (this is the glossary's "no proper projective linear
combination of the points is `p`-divisible"). -/
def Saturated {G : Type} [AddCommMonoid G] (divPts : ℕ → G → List G) (p : ℕ)
    (Plist : List G) : Prop :=
  ∀ c : List ℕ, c.length = Plist.length → (∃ i < c.length, ¬ p ∣ c.getD i 0) →
    divPts p (natCombo c Plist) = []

/-- The mod-`p` row combination of kernel vectors at column `i`. -/
def rowComboNat {p : ℕ} (c : List ℕ) (V : Vecs p) (i : ℕ) : ℕ :=
  ∑ k ∈ Finset.range V.length, c.getD k 0 * ((V.getD k []).getD i 0).val

/-- The rows of `V` are linearly independent over `F_p` (what a correct
`right_kernel().basis()` returns): a combination with some coefficient
nonzero mod `p` has some nonzero column. -/
def RowsIndep (p n : ℕ) (V : Vecs p) : Prop :=
  ∀ c : List ℕ, c.length = V.length → (∃ j < c.length, ¬ p ∣ c.getD j 0) →
    ∃ i < n, (∑ k ∈ Finset.range V.length,
      (c.getD k 0 : ZMod p) * (V.getD k []).getD i 0) ≠ 0

theorem zip_map_sum_eq {α β M : Type} [AddCommMonoid M] (f : α → β → M) (a0 : α) (b0 : β) :
    ∀ (l1 : List α) (l2 : List β), l1.length = l2.length →
      ((l1.zip l2).map (fun ab => f ab.1 ab.2)).sum
        = ∑ i ∈ Finset.range l1.length, f (l1.getD i a0) (l2.getD i b0) := by
  intro l1
  induction l1 with
  | nil =>
    intro l2 h
    simp
  | cons a l1 ih =>
    intro l2 h
    cases l2 with
    | nil => simp at h
    | cons b l2 =>
      simp only [List.zip_cons_cons, List.map_cons, List.sum_cons, List.length_cons]
      rw [Finset.sum_range_succ']
      simp only [List.getD_cons_succ, List.getD_cons_zero]
      rw [ih l2 (by simpa using h)]
      exact (add_comm _ _).symm

theorem natCombo_eq_sum {G : Type} [AddCommMonoid G] (c : List ℕ) (Ps : List G)
    (h : c.length = Ps.length) :
    natCombo c Ps = ∑ i ∈ Finset.range Ps.length, c.getD i 0 • Ps.getD i 0 := by
  unfold natCombo
  rw [zip_map_sum_eq (fun (x : ℕ) (P : G) => x • P) 0 0 c Ps h, h]

theorem intCombo_eq_sum {G : Type} [AddCommMonoid G] {p : ℕ} (v : List (ZMod p))
    (Ps : List G) (h : v.length = Ps.length) :
    intCombo v Ps = ∑ i ∈ Finset.range Ps.length, (v.getD i 0).val • Ps.getD i 0 := by
  unfold intCombo
  rw [zip_map_sum_eq (fun (x : ZMod p) (P : G) => x.val • P) 0 0 v Ps h, h]

/-- Rearrangement: a combination of the kernel-derived points is the
combination of the original points with the product coefficients. -/
theorem natCombo_map_intCombo {G : Type} [AddCommMonoid G] {p : ℕ} (V : Vecs p)
    (Plist : List G) (c : List ℕ) (hc : c.length = V.length)
    (hV : ∀ v ∈ V, v.length = Plist.length) :
    natCombo c (V.map (fun v => intCombo v Plist))
      = natCombo ((List.range Plist.length).map (fun i => rowComboNat c V i)) Plist := by
  rw [natCombo_eq_sum c _ (by simpa using hc),
    natCombo_eq_sum _ Plist (by simp)]
  simp only [List.length_map]
  have e1 : ∀ k ∈ Finset.range V.length,
      c.getD k 0 • (V.map (fun v => intCombo v Plist)).getD k 0
        = ∑ i ∈ Finset.range Plist.length,
            (c.getD k 0 * ((V.getD k []).getD i 0).val) • Plist.getD i 0 := by
    intro k hk
    have hklt : k < V.length := Finset.mem_range.1 hk
    have hgd : (V.map (fun v => intCombo v Plist)).getD k 0
        = intCombo (V.getD k []) Plist := by
      rw [List.getD_eq_getElem _ _ (by simpa using hklt), List.getElem_map,
        List.getD_eq_getElem _ _ hklt]
    have hmem : V.getD k [] ∈ V := by
      rw [List.getD_eq_getElem _ _ hklt]
      exact List.getElem_mem hklt
    rw [hgd, intCombo_eq_sum _ _ (hV _ hmem), Finset.smul_sum]
    refine Finset.sum_congr rfl ?_
    intro i _
    rw [smul_smul]
  rw [Finset.sum_congr rfl e1, Finset.sum_comm]
  refine Finset.sum_congr rfl ?_
  intro i hi
  have hgd2 : ((List.range Plist.length).map (fun j => rowComboNat c V j)).getD i 0
      = rowComboNat c V i := by
    rw [List.getD_eq_getElem _ _ (by simpa using Finset.mem_range.1 hi),
      List.getElem_map, List.getElem_range]
  rw [hgd2, ← Finset.sum_smul]
  rfl

/-- The kernel-derived point list inherits saturation: coefficients
nonzero mod `p` push through independent kernel rows to coefficients
nonzero mod `p` on the original points. -/
theorem saturated_map_intCombo {G : Type} [AddCommMonoid G] (divPts : ℕ → G → List G)
    (p : ℕ) (hp : 2 ≤ p) (Plist : List G) (HS : Saturated divPts p Plist) (V : Vecs p)
    (hV : ∀ v ∈ V, v.length = Plist.length) (hInd : RowsIndep p Plist.length V) :
    Saturated divPts p (V.map (fun v => intCombo v Plist)) := by
  intro c hc hnz
  rw [natCombo_map_intCombo V Plist c (by simpa using hc) hV]
  obtain ⟨i, hi, hne⟩ := hInd c (by simpa using hc) (by simpa using hnz)
  refine HS _ (by simp) ⟨i, by simpa using hi, ?_⟩
  have hgd : ((List.range Plist.length).map (fun j => rowComboNat c V j)).getD i 0
      = rowComboNat c V i := by
    rw [List.getD_eq_getElem _ _ (by simpa using hi), List.getElem_map, List.getElem_range]
  rw [hgd]
  intro hdvd
  apply hne
  haveI : NeZero p := ⟨by omega⟩
  have hcast : ((rowComboNat c V i : ℕ) : ZMod p)
      = ∑ k ∈ Finset.range V.length, (c.getD k 0 : ZMod p) * (V.getD k []).getD i 0 := by
    unfold rowComboNat
    push_cast
    refine Finset.sum_congr rfl ?_
    intro k _
    rw [ZMod.natCast_val, ZMod.cast_id]
  rw [← hcast]
  exact (ZMod.natCast_zmod_eq_zero_iff_dvd _ p).2 hdvd

theorem saturated_single_divPts {G : Type} [AddCommMonoid G] (divPts : ℕ → G → List G)
    (p : ℕ) (hp : 2 ≤ p) (P : G) (HS : Saturated divPts p [P]) : divPts p P = [] := by
  have h1 : ¬ p ∣ (1 : ℕ) := by
    intro h
    have := Nat.le_of_dvd one_pos h
    omega
  have := HS [1] (by simp) ⟨0, by norm_num, by simpa using h1⟩
  simpa [natCombo] using this

/-- The no-sieve saturation check succeeds on a `p`-saturated list (fresh
empty cache). -/
theorem nosieve_sat_of_saturated {G : Type} [AddCommMonoid G] [DecidableEq G]
    (divPts : ℕ → G → List G) (p : ℕ) (hp : 2 ≤ p) (Plist : List G)
    (HS : Saturated divPts p Plist) :
    ∃ c', p_sat_nosieve divPts Plist p [] = (.sat c', c') := by
  unfold p_sat_nosieve
  by_cases h0 : Plist.length = 0
  · rw [if_pos h0]
    exact ⟨[], rfl⟩
  · rw [if_neg h0]
    by_cases h1 : Plist.length = 1 ∧ p = 2
    · rw [if_pos h1]
      obtain ⟨P, rfl⟩ : ∃ P, Plist = [P] := by
        cases Plist with
        | nil => simp at h0
        | cons P t =>
          cases t with
          | nil => exact ⟨P, rfl⟩
          | cons Q t' => simp at h1
      simp only [List.headD_cons]
      rw [saturated_single_divPts divPts p hp P HS]
      exact ⟨[], rfl⟩
    · rw [if_neg h1]
      have hP : Plist ≠ [] := by
        intro h
        rw [h] at h0
        simp at h0
      have hdivAll : ∀ w ∈ projEnum p Plist.length,
          divPts p (lincomb (multsOf Plist p) w) = [] := by
        intro w hw
        obtain ⟨hwl, hwb, -⟩ := (mem_projEnum p Plist.length hp w).1 hw
        rw [lincomb_eq_natCombo p Plist w hP hwl hwb
          (projEnum_last_mem p Plist.length w hw).1]
        refine HS w hwl ?_
        have h1w : 1 ∈ w := (projEnum_last_mem p Plist.length w hw).2
        have hidx : w.indexOf 1 < w.length := List.indexOf_lt_length.2 h1w
        refine ⟨w.indexOf 1, hidx, ?_⟩
        rw [List.getD_eq_getElem _ _ hidx, List.getElem_indexOf hidx]
        intro hdvd
        have := Nat.le_of_dvd one_pos hdvd
        omega
      obtain ⟨c', heq, -⟩ := exhaustLoop_sat divPts p (multsOf Plist p) _ []
        (fun kv hkv => absurd hkv (List.not_mem_nil kv)) hdivAll
      exact ⟨c', heq⟩

/-- The sieve always reports success on a `p`-saturated list, whatever the
rank service, the event stream (as long as no event carries an uncaught
exception) and the kernel service (as long as its rows are independent and
well-sized). -/
theorem sieveRun_sat_of_saturated {G : Type} [AddCommMonoid G] [DecidableEq G] (p : ℕ)
    (divPts : ℕ → G → List G) (rankF : Vecs p → ℕ) (kerF : Vecs p → Vecs p)
    (Plist : List G) (cache : Cache G) (hp : 2 ≤ p)
    (HS : Saturated divPts p Plist)
    (hker : ∀ A : Vecs p, (∀ v ∈ kerF A, v.length = Plist.length)
      ∧ RowsIndep p Plist.length (kerF A)) :
    ∀ (events : List (Event p)) (A : Vecs p) (rankA count : ℕ),
      (∀ ev ∈ events, ∃ vecs, handleEvent ev = .ok vecs) →
      ∃ c', sieveRun p divPts rankF kerF Plist cache events A rankA count
        = .ok (.sat c') := by
  have hfall : ∀ A : Vecs p, kernelFallback p divPts kerF Plist cache A = .sat cache := by
    intro A
    unfold kernelFallback
    obtain ⟨c', heq⟩ := nosieve_sat_of_saturated divPts p hp _
      (saturated_map_intCombo divPts p hp Plist HS (kerF A) (hker A).1 (hker A).2)
    have h1 : (p_sat_nosieve divPts ((kerF A).map (fun v => intCombo v Plist)) p []).1
        = .sat c' := by
      rw [heq]
    dsimp only
    rw [h1]
  intro events
  induction events with
  | nil =>
    intro A rankA count _
    exact ⟨cache, by rw [sieveRun, hfall A]⟩
  | cons ev rest ih =>
    intro A rankA count hev
    obtain ⟨vecs, hv⟩ := hev ev (List.mem_cons_self ev rest)
    rw [sieveRun, hv]
    dsimp only
    by_cases hrk : rankF (A ++ vecs) = Plist.length
    · rw [if_pos hrk]
      exact ⟨cache, rfl⟩
    · rw [if_neg hrk]
      by_cases hstag : rankF (A ++ vecs) = rankA
      · rw [if_pos hstag]
        by_cases hcnt : count + 1 = 10
        · rw [if_pos hcnt, hfall]
          exact ⟨cache, rfl⟩
        · rw [if_neg hcnt]
          exact ih (A ++ vecs) rankA (count + 1)
            (fun e he => hev e (List.mem_cons_of_mem ev he))
      · rw [if_neg hstag]
        exact ih (A ++ vecs) (rankF (A ++ vecs)) 0
          (fun e he => hev e (List.mem_cons_of_mem ev he))

/-- C9: re-running `p_saturation` on an already-`p`-saturated list with a
fresh empty cache returns success, for both the sieve and the exhaustive
strategy — for any rank service, any kernel service returning well-sized
independent rows, and any event stream free of uncaught library
exceptions. -/
theorem claim_C9 {G : Type} [AddCommMonoid G] [DecidableEq G] (p : ℕ)
    (divPts : ℕ → G → List G) (rankF : Vecs p → ℕ) (kerF : Vecs p → Vecs p)
    (events : List (Event p)) (Plist : List G) (sieve : Bool)
    (hp : 2 ≤ p) (HS : Saturated divPts p Plist)
    (hker : ∀ A : Vecs p, (∀ v ∈ kerF A, v.length = Plist.length)
      ∧ RowsIndep p Plist.length (kerF A))
    (hev : ∀ ev ∈ events, ∃ vecs, handleEvent ev = .ok vecs) :
    ∃ c', (p_saturation p divPts rankF kerF events Plist sieve []).1
      = .ok (.sat c') := by
  unfold p_saturation
  by_cases h0 : Plist.length = 0
  · rw [if_pos h0]
    exact ⟨[], rfl⟩
  · rw [if_neg h0]
    by_cases h1 : Plist.length = 1 ∧ p = 2
    · rw [if_pos h1]
      obtain ⟨P, rfl⟩ : ∃ P, Plist = [P] := by
        cases Plist with
        | nil => simp at h0
        | cons P t =>
          cases t with
          | nil => exact ⟨P, rfl⟩
          | cons Q t' => simp at h1
      simp only [List.headD_cons]
      rw [saturated_single_divPts divPts p hp P HS]
      exact ⟨[], rfl⟩
    · rw [if_neg h1]
      by_cases hs : sieve = false
      · rw [if_pos hs]
        obtain ⟨c', heq⟩ := nosieve_sat_of_saturated divPts p hp Plist HS
        refine ⟨c', ?_⟩
        have h2 : (p_sat_nosieve divPts Plist p []).1 = .sat c' := by rw [heq]
        dsimp only
        rw [h2]
      · rw [if_neg hs]
        exact sieveRun_sat_of_saturated p divPts rankF kerF Plist [] hp HS hker
          events [] 0 0 hev

/-- C9 witness instance: `[1]` over `ℤ` is 3-saturated (no multiple of `1`
with coefficient nonzero mod 3 is 3-divisible), and `p_saturation` with the
sieve and a fresh cache reports success. -/
theorem claim_C9_witness :
    ∃ c', (p_saturation 3 divPtsInt (rkZero 3) (kerTriv 3) [] [(1 : ℤ)] true []).1
      = .ok (.sat c') := by
  refine claim_C9 3 divPtsInt (rkZero 3) (kerTriv 3) [] [(1 : ℤ)] true (by decide)
    ?_ ?_ ?_
  · intro c hc hnz
    obtain ⟨c0, rfl⟩ : ∃ c0, c = [c0] := by
      cases c with
      | nil => simp at hc
      | cons c0 t =>
        cases t with
        | nil => exact ⟨c0, rfl⟩
        | cons d t' => simp at hc
    obtain ⟨i, hi, hnd⟩ := hnz
    have hi0 : i = 0 := by simpa using hi
    subst hi0
    have hnd0 : ¬ (3 : ℕ) ∣ c0 := by simpa using hnd
    have hcombo : natCombo [c0] [(1 : ℤ)] = (c0 : ℤ) := by
      simp [natCombo]
    rw [hcombo]
    unfold divPtsInt
    rw [if_neg]
    intro hcontr
    obtain ⟨-, hdvd⟩ := hcontr
    exact hnd0 (by exact_mod_cast hdvd)
  · intro A
    refine ⟨fun v hv => absurd hv (List.not_mem_nil v), ?_⟩
    rintro c hc ⟨j, hj, -⟩
    have hc0 : c.length = 0 := by simpa [kerTriv] using hc
    omega
  · intro ev hev
    exact absurd hev (List.not_mem_nil ev)

end Saturation
